import Mathlib

/-!
Verification of the mpipe multiprocessing pipeline framework (src/src/mpipe.py).

The development shallowly embeds the Python source:

* `TubePGet` / `TubeQGet` embed `TubeP.get` / `TubeQ.get` (timeout handling;
  the `TubeQ` embedding records that the handler line
  `except multiprocessing.Queue.Empty` itself raises `AttributeError`,
  because `multiprocessing.Queue` is a bound factory function and has no
  `Empty` attribute).
* `StageR` with `StageR.link`, `StageR.build`, `StageR.getLeaves` embeds the
  graph part of `Stage` (`link` appends unconditionally; `build` adds a
  terminal output tube to leaf stages and recurses; worker start-up does not
  change any graph field and is therefore not part of the graph embedding).
* `OState`/`OStep` is an interleaving small-step semantics of a pool of N
  `OrderedWorker.run` processes sharing one input tube, M output tubes and the
  two lock rings built by `OrderedWorker._link` / `assemble`.  Each transition
  is one lock-protected critical section of the source: `acquire prev-input;
  get; release next-input` is one step (the lock serializes it against all
  other workers, and the only effect visible to others is the tube pop and the
  token hand-off), `putResult`'s `acquire; put*; release` is one step for the
  same reason, and each branch of the stop aggregation is one step.  The
  exception path of `run` (a failing `tube.get`) is the `readFail` step: the
  token was acquired but, as in the source, `release` is skipped.
  The fields `reads`/`pubs` are ghost counters incremented by the read and
  publish steps; they affect no enabledness condition and no real field.
* `UState`/`UStep` is the same for `UnorderedWorker.run` (no lock rings).
* `stageGetB`/`stageGetT`/`pipeGetB`/`resultsFuel` embed the consumer side
  `Stage.get`, `Pipeline.get` and `Pipeline.results` as functions of the
  final tube contents (`none` models a `get` that blocks forever).

Feeding the input sequence `x1…xk, NONE` is modelled by pre-loading the input
tube: per-tube FIFO makes the eventual tube content independent of when the
producer's puts interleave with the workers' gets.
-/

/-- An envelope on a tube: `(payload, count)` as built by `Stage.put`,
`putResult` and the stop-aggregation code.  `payload = none` is the NONE
stop sentinel. -/
structure Env (τ : Type) where
  payload : Option τ
  count : Nat
deriving DecidableEq, Repr

/-- Python truthiness of the `timeout` argument: `None` and `0` are falsy,
so `if timeout:` selects the timed branch only for a nonzero timeout. -/
def timeoutTruthy : Option Nat → Bool
  | none => false
  | some n => !(n == 0)

/-- Python-level errors that the tube embeddings can surface. -/
inductive PyErr where
  | attributeError
deriving DecidableEq, Repr

/-- Result of a tube `get`: the blocking branch either blocks forever on an
empty tube or returns the item directly; the timed branch returns the
`(ok, item)` pair of the source.  Each constructor also carries the tube
contents left behind, so loss of items is observable. -/
inductive GetOut (δ : Type) where
  | blocked
  | direct (v : δ) (rest : List δ)
  | timed (ok : Bool) (v : Option δ) (rest : List δ)
deriving DecidableEq, Repr

/-- `TubeP.get`: `if timeout:` then `poll(timeout)`/`recv()` — an available
item is received, an expired poll returns `(False, None)` and consumes
nothing — else a blocking `recv()`. -/
def TubePGet (conn : List δ) (timeout : Option Nat) : GetOut δ :=
  if timeoutTruthy timeout then
    match conn with
    | v :: rest => .timed true (some v) rest
    | [] => .timed false none []
  else
    match conn with
    | v :: rest => .direct v rest
    | [] => .blocked

/-- `TubeQ.get`: `if timeout:` then `self._queue.get(True, timeout)` inside
`try`.  On an available item the `get` succeeds.  On expiry the queue raises
`queue.Empty`; evaluating the handler clause `except
multiprocessing.Queue.Empty` then raises `AttributeError` — in both Python 2
and 3 `multiprocessing.Queue` is a factory function with no `Empty`
attribute — so the call errors instead of returning `(False, None)`. -/
def TubeQGet (q : List δ) (timeout : Option Nat) : Except PyErr (GetOut δ) :=
  if timeoutTruthy timeout then
    match q with
    | v :: rest => .ok (.timed true (some v) rest)
    | [] => .error .attributeError
  else
    match q with
    | v :: rest => .ok (.direct v rest)
    | [] => .ok .blocked

/-- An output-tube slot of a stage: either the input tube of a linked
downstream stage (identified by its tube id), or the fresh terminal tube that
`Stage.build` creates for a leaf. -/
inductive TubeEnd where
  | toStage (tubeId : Nat)
  | terminal
deriving DecidableEq, Repr

/-- The graph part of a `Stage` object: pool size, its own input tube id,
its output-tube list and its downstream stages (`_size`, `_input_tube`,
`_output_tubes`, `_next_stages`). -/
inductive StageR where
  | mk (size : Nat) (inTube : Nat) (outTubes : List TubeEnd) (next : List StageR)

def StageR.size : StageR → Nat
  | .mk sz _ _ _ => sz

def StageR.inTube : StageR → Nat
  | .mk _ it _ _ => it

def StageR.outTubes : StageR → List TubeEnd
  | .mk _ _ ot _ => ot

def StageR.nextStages : StageR → List StageR
  | .mk _ _ _ ns => ns

/-- `Stage.__init__`: stores the size, makes a fresh input tube, and starts
with empty output-tube and downstream lists.  The source performs no
validation of `size`. -/
def StageR.init (size inTube : Nat) : StageR :=
  .mk size inTube [] []

/-- `Stage.link`: append the downstream stage's input tube to this stage's
output tubes and the stage itself to the downstream list.  The source has no
guard: this is the behaviour before and after `build`. -/
def StageR.link : StageR → StageR → StageR
  | .mk sz it ot ns, t => .mk sz it (ot ++ [.toStage t.inTube]) (ns ++ [t])

mutual

/-- `Stage.build`, graph part: a stage with no output tubes gets one fresh
terminal tube; then all downstream stages are built.  (`assemble` starts the
workers but changes no graph field.) -/
def StageR.build : StageR → StageR
  | .mk sz it ot ns =>
      .mk sz it (if ot.isEmpty then [TubeEnd.terminal] else ot) (StageR.buildList ns)

def StageR.buildList : List StageR → List StageR
  | [] => []
  | s :: ss => StageR.build s :: StageR.buildList ss

end

mutual

/-- `Stage.getLeaves`: a stage with no downstream stages returns itself,
otherwise the concatenation of the leaves of its children. -/
def StageR.getLeaves : StageR → List StageR
  | .mk sz it ot [] => [.mk sz it ot []]
  | .mk sz it ot (n :: ns) => StageR.leavesList (StageR.mk sz it ot (n :: ns)).nextStages

def StageR.leavesList : List StageR → List StageR
  | [] => []
  | s :: ss => StageR.getLeaves s ++ StageR.leavesList ss

end

/-- Reachability in the stage graph along `_next_stages` edges. -/
inductive StageR.reaches : StageR → StageR → Prop where
  | here (s : StageR) : StageR.reaches s s
  | child (s t u : StageR) : t ∈ s.nextStages → StageR.reaches t u → StageR.reaches s u

/-- Program counter of one `OrderedWorker.run` process between two
inter-worker interactions:

* `waitIn` — at the top of the loop, about to `acquire` the previous-input
  lock and read the input tube;
* `work t` — input lock released, about to call `doTask t`;
* `waitOut r` — `doTask` returned `r ≠ None`, inside `putResult`, about to
  `acquire` the previous-output lock;
* `stopAgg c` — dequeued the stop envelope `(None, c)` (input lock already
  released, or lost in the exception path), about to run the aggregation;
* `done` — `break` executed, the process has exited. -/
inductive OPC (τ : Type) where
  | waitIn
  | work (t : τ)
  | waitOut (r : τ)
  | stopAgg (c : Nat)
  | done
deriving DecidableEq, Repr

/-- State of one ordered stage: the input tube, the output tubes, the two
lock rings (`inTok i` / `outTok i` = worker `i`'s previous-input /
previous-output lock is currently released), the workers' program counters,
plus the ghost counters `reads` (envelopes consumed from the input tube) and
`pubs` (completed `putResult` calls). -/
structure OState (τ : Type) (N : Nat) where
  inT : List (Env τ)
  outTs : List (List (Env τ))
  inTok : Fin N → Bool
  outTok : Fin N → Bool
  wpc : Fin N → OPC τ
  reads : Nat
  pubs : Nat
  broken : Bool
deriving DecidableEq

/-- The ring successor of worker index `i`. -/
def nextIdx (i : Fin N) : Fin N := ⟨(i.val + 1) % N, Nat.mod_lt _ i.pos⟩

/-- Hand the ring token past worker `i`: `i`'s own lock is re-acquired
(held), worker `i+1`'s lock is released.  For `N = 1` the two locks are the
same object and the net effect of `acquire; release` is released. -/
def passTok (tok : Fin N → Bool) (i : Fin N) : Fin N → Bool :=
  fun j => if j = nextIdx i then true else if j = i then false else tok j

/-- The continuation after `result = self.doTask(task)`: a non-`None` result
is published (`putResult` is entered), a `None` result is skipped and the
worker loops. -/
def afterTask (dt : τ → Option τ) (t : τ) : OPC τ :=
  match dt t with
  | some r => .waitOut r
  | none => .waitIn

/-- One transition of the ordered stage (`dt` is the stage's `doTask`).
Each constructor is one lock-protected critical section of
`OrderedWorker.run` / `putResult`; see the header comment. -/
inductive OStep (dt : τ → Option τ) (N : Nat) : Fin N → OState τ N → OState τ N → Prop where
  | readTask (s : OState τ N) (i : Fin N) (t : τ) (c : Nat) (rest : List (Env τ)) :
      s.wpc i = .waitIn → s.inTok i = true → s.inT = ⟨some t, c⟩ :: rest →
      OStep dt N i s { s with inT := rest, inTok := passTok s.inTok i,
                              wpc := Function.update s.wpc i (.work t),
                              reads := s.reads + 1 }
  | readStop (s : OState τ N) (i : Fin N) (c : Nat) (rest : List (Env τ)) :
      s.wpc i = .waitIn → s.inTok i = true → s.inT = ⟨none, c⟩ :: rest →
      OStep dt N i s { s with inT := rest, inTok := passTok s.inTok i,
                              wpc := Function.update s.wpc i (.stopAgg c),
                              reads := s.reads + 1 }
  | readFail (s : OState τ N) (i : Fin N) :
      s.wpc i = .waitIn → s.inTok i = true → s.inT = [] → s.broken = true →
      OStep dt N i s { s with inTok := Function.update s.inTok i false,
                              wpc := Function.update s.wpc i (.stopAgg 0) }
  | workStep (s : OState τ N) (i : Fin N) (t : τ) :
      s.wpc i = .work t →
      OStep dt N i s { s with wpc := Function.update s.wpc i (afterTask dt t) }
  | pubStep (s : OState τ N) (i : Fin N) (r : τ) :
      s.wpc i = .waitOut r → s.outTok i = true →
      OStep dt N i s { s with outTs := s.outTs.map (fun o => o ++ [⟨some r, 0⟩]),
                              outTok := passTok s.outTok i,
                              wpc := Function.update s.wpc i .waitIn,
                              pubs := s.pubs + 1 }
  | stopPass (s : OState τ N) (i : Fin N) (c : Nat) :
      s.wpc i = .stopAgg c → c + 1 ≠ N →
      OStep dt N i s { s with inT := s.inT ++ [⟨none, c + 1⟩],
                              wpc := Function.update s.wpc i .done }
  | stopLast (s : OState τ N) (i : Fin N) (c : Nat) :
      s.wpc i = .stopAgg c → c + 1 = N →
      OStep dt N i s { s with outTs := s.outTs.map (fun o => o ++ [⟨none, 0⟩]),
                              wpc := Function.update s.wpc i .done }

/-- Initial state of an assembled ordered stage with an arbitrary input-tube
content: all workers at the loop top, worker 0's previous locks pre-released
(`next_is_first` in `_link`), output tubes empty. -/
def oInit0 (N M : Nat) (envs : List (Env τ)) (brk : Bool) : OState τ N :=
  { inT := envs
    outTs := List.replicate M []
    inTok := fun j => decide (j.val = 0)
    outTok := fun j => decide (j.val = 0)
    wpc := fun _ => .waitIn
    reads := 0
    pubs := 0
    broken := brk }

/-- Initial state when the producer has fed `x1…xk` followed by NONE. -/
def oInit (N M : Nat) (xs : List τ) (brk : Bool) : OState τ N :=
  oInit0 N M (xs.map (fun x => ⟨some x, 0⟩) ++ [⟨none, 0⟩]) brk

def OStepAny (dt : τ → Option τ) (N : Nat) (s s' : OState τ N) : Prop :=
  ∃ i, OStep dt N i s s'

def OReach (dt : τ → Option τ) (N : Nat) : OState τ N → OState τ N → Prop :=
  Relation.ReflTransGen (OStepAny dt N)

/-- All workers of the ordered stage have exited. -/
def allDoneO (s : OState τ N) : Prop := ∀ i, s.wpc i = OPC.done

/-- No transition at all is enabled: the stage is wedged. -/
def stuckO (dt : τ → Option τ) (N : Nat) (s : OState τ N) : Prop :=
  ∀ i s', ¬ OStep dt N i s s'

/-- Program counter of one `UnorderedWorker.run` process. -/
inductive UPC (τ : Type) where
  | idle
  | gotE (e : Env τ)
  | pub (r : τ)
  | done
deriving DecidableEq, Repr

/-- State of one unordered stage: as `OState` but without lock rings. -/
structure UState (τ : Type) (N : Nat) where
  inT : List (Env τ)
  outTs : List (List (Env τ))
  wpc : Fin N → UPC τ
  broken : Bool
deriving DecidableEq

/-- The unordered continuation after `result = self.doTask(task)`. -/
def afterTaskU (dt : τ → Option τ) (t : τ) : UPC τ :=
  match dt t with
  | some r => .pub r
  | none => .idle

/-- One transition of the unordered stage (`dt` is the stage's `doTask`).
`uGet` is one queue dequeue, `uGetFail` the exception path, `uTask` the
`doTask` call and its `None` test, `uPub` one `putResult`, and
`uStopEmit`/`uStopPass` the two branches of the stop aggregation. -/
inductive UStep (dt : τ → Option τ) (N : Nat) : Fin N → UState τ N → UState τ N → Prop where
  | uGet (s : UState τ N) (i : Fin N) (e : Env τ) (rest : List (Env τ)) :
      s.wpc i = .idle → s.inT = e :: rest →
      UStep dt N i s { s with inT := rest, wpc := Function.update s.wpc i (.gotE e) }
  | uGetFail (s : UState τ N) (i : Fin N) :
      s.wpc i = .idle → s.inT = [] → s.broken = true →
      UStep dt N i s { s with wpc := Function.update s.wpc i (.gotE ⟨none, 0⟩) }
  | uTask (s : UState τ N) (i : Fin N) (t : τ) (c : Nat) :
      s.wpc i = .gotE ⟨some t, c⟩ →
      UStep dt N i s { s with wpc := Function.update s.wpc i (afterTaskU dt t) }
  | uPub (s : UState τ N) (i : Fin N) (r : τ) :
      s.wpc i = .pub r →
      UStep dt N i s { s with outTs := s.outTs.map (fun o => o ++ [⟨some r, 0⟩]),
                              wpc := Function.update s.wpc i .idle }
  | uStopEmit (s : UState τ N) (i : Fin N) (c : Nat) :
      s.wpc i = .gotE ⟨none, c⟩ → c + 1 = N →
      UStep dt N i s { s with outTs := s.outTs.map (fun o => o ++ [⟨none, 0⟩]),
                              wpc := Function.update s.wpc i .done }
  | uStopPass (s : UState τ N) (i : Fin N) (c : Nat) :
      s.wpc i = .gotE ⟨none, c⟩ → c + 1 ≠ N →
      UStep dt N i s { s with inT := s.inT ++ [⟨none, c + 1⟩],
                              wpc := Function.update s.wpc i .done }

/-- Initial state of an assembled unordered stage. -/
def uInit0 (N M : Nat) (envs : List (Env τ)) (brk : Bool) : UState τ N :=
  { inT := envs
    outTs := List.replicate M []
    wpc := fun _ => .idle
    broken := brk }

def UStepAny (dt : τ → Option τ) (N : Nat) (s s' : UState τ N) : Prop :=
  ∃ i, UStep dt N i s s'

def UReach (dt : τ → Option τ) (N : Nat) : UState τ N → UState τ N → Prop :=
  Relation.ReflTransGen (UStepAny dt N)

def allDoneU (s : UState τ N) : Prop := ∀ i, s.wpc i = UPC.done

/-- `Stage.get` without timeout, as a function of the output-tube contents:
the loop `for tube in self._output_tubes: result = tube.get()[0]` reads one
envelope from each tube in order, keeping the payload of the last; a blocking
`get` on an empty tube never returns (`none`).  `acc` is the running value of
the `result` variable (initially `None`); the consumed tube contents are
returned alongside. -/
def stageGetBGo (acc : Option τ) : List (List (Env τ)) → Option (Option τ × List (List (Env τ)))
  | [] => some (acc, [])
  | [] :: _ => none
  | (e :: rest) :: ts =>
      (stageGetBGo e.payload ts).map (fun p => (p.1, rest :: p.2))

def stageGetB (tubes : List (List (Env τ))) : Option (Option τ × List (List (Env τ))) :=
  stageGetBGo none tubes

/-- `Stage.get` with a (truthy) timeout: each tube is polled; an available
envelope yields `(True, payload)`, an expired poll yields `(False, None)` and
consumes nothing; the pair of the last tube is returned. -/
def stageGetTGo (acc : Bool × Option τ) :
    List (List (Env τ)) → (Bool × Option τ) × List (List (Env τ))
  | [] => (acc, [])
  | [] :: ts =>
      let p := stageGetTGo (false, none) ts
      (p.1, [] :: p.2)
  | (e :: rest) :: ts =>
      let p := stageGetTGo (true, e.payload) ts
      (p.1, rest :: p.2)

def stageGetT (tubes : List (List (Env τ))) : (Bool × Option τ) × List (List (Env τ)) :=
  stageGetTGo (false, none) tubes

/-- `Pipeline.get` without timeout: `for stage in self._output_stages:
result = stage.get()` — one `Stage.get` per leaf, keeping the last payload.
Each leaf is given by the contents of its output tubes. -/
def pipeGetBGo (acc : Option τ) :
    List (List (List (Env τ))) → Option (Option τ × List (List (List (Env τ))))
  | [] => some (acc, [])
  | ls :: rest =>
      match stageGetB ls with
      | none => none
      | some (r, ls') =>
          (pipeGetBGo r rest).map (fun p => (p.1, ls' :: p.2))

def pipeGetB (leaves : List (List (List (Env τ)))) :
    Option (Option τ × List (List (List (Env τ)))) :=
  pipeGetBGo none leaves

/-- `Pipeline.results`: repeatedly `get()`; stop (cleanly, `some`) when the
result is `None`.  `none` models a run in which some `get` blocks forever or
the fuel is insufficient. -/
def resultsFuel (τ : Type) : Nat → List (List (List (Env τ))) → Option (List τ)
  | 0, _ => none
  | fuel + 1, leaves =>
      match pipeGetB leaves with
      | none => none
      | some (none, _) => some []
      | some (some v, leaves') => (resultsFuel τ fuel leaves').map (fun l => v :: l)

theorem leavesList_eq_flatMap (ss : List StageR) :
    StageR.leavesList ss = ss.flatMap StageR.getLeaves := by
  induction ss with
  | nil => simp [StageR.leavesList]
  | cons s ss ih => simp [StageR.leavesList, ih]

theorem mem_leavesList (ss : List StageR) (x : StageR) :
    x ∈ StageR.leavesList ss ↔ ∃ s ∈ ss, x ∈ StageR.getLeaves s := by
  rw [leavesList_eq_flatMap]; simp

theorem getLeaves_char (s : StageR) :
    ∀ x, x ∈ s.getLeaves ↔ (s.reaches x ∧ x.nextStages = []) := by
  refine @StageR.rec
    (fun s => ∀ x, x ∈ s.getLeaves ↔ (s.reaches x ∧ x.nextStages = []))
    (fun ss => ∀ x, x ∈ StageR.leavesList ss ↔
        ∃ t ∈ ss, t.reaches x ∧ x.nextStages = [])
    ?_ ?_ ?_ s
  · intro sz it ot ns ihns x
    cases ns with
    | nil =>
        simp only [StageR.getLeaves, List.mem_singleton]
        constructor
        · rintro rfl
          exact ⟨StageR.reaches.here _, rfl⟩
        · rintro ⟨hr, hleaf⟩
          cases hr with
          | here => rfl
          | child _ t u ht _ => simp [StageR.nextStages] at ht
    | cons a as =>
        rw [StageR.getLeaves]
        simp only [StageR.nextStages]
        rw [ihns x]
        constructor
        · rintro ⟨c, hc, hr, hleaf⟩
          exact ⟨StageR.reaches.child _ c x (by simpa [StageR.nextStages] using hc) hr, hleaf⟩
        · rintro ⟨hr, hleaf⟩
          cases hr with
          | here => simp [StageR.nextStages] at hleaf
          | child _ t u ht htu =>
              simp only [StageR.nextStages] at ht
              exact ⟨t, ht, htu, hleaf⟩
  · intro x
    simp [StageR.leavesList]
  · intro t ts iht ihts x
    simp only [StageR.leavesList, List.mem_append, iht x, ihts x]
    constructor
    · rintro (h | ⟨u, hu, h⟩)
      · exact ⟨t, by simp, h⟩
      · exact ⟨u, by simp [hu], h⟩
    · rintro ⟨u, hu, h⟩
      rcases List.mem_cons.mp hu with rfl | hu
      · exact Or.inl h
      · exact Or.inr ⟨u, hu, h⟩

theorem flatMap_self_of_leaves :
    ∀ L : List StageR, (∀ l ∈ L, StageR.getLeaves l = [l]) →
      L.flatMap StageR.getLeaves = L := by
  intro L
  induction L with
  | nil => intro _; simp
  | cons a L ih =>
      intro h
      have ha := h a (List.mem_cons_self a L)
      simp only [List.flatMap_cons, ha]
      rw [ih (fun l hl => h l (List.mem_cons_of_mem _ hl))]
      simp

theorem getLeaves_of_leaf (x : StageR) (h : x.nextStages = []) :
    StageR.getLeaves x = [x] := by
  cases x with
  | mk sz it ot ns =>
      simp only [StageR.nextStages] at h
      subst h
      rw [StageR.getLeaves]

/-- C9: `getLeaves` computes, by DFS along the downstream lists, exactly the
reachable stages whose downstream list is empty; and re-applying `getLeaves`
to the computed leaves reproduces the same collection (the pure embedding of
the mutation-free source makes literal repetition of the call trivially
equal, so idempotence is stated as stability under re-application). -/
theorem c9_getLeaves_dfs_and_idempotent :
    (∀ s x : StageR, x ∈ s.getLeaves ↔ (s.reaches x ∧ x.nextStages = [])) ∧
    (∀ s : StageR, (s.getLeaves).flatMap StageR.getLeaves = s.getLeaves) := by
  refine ⟨fun s => getLeaves_char s, ?_⟩
  intro s
  exact flatMap_self_of_leaves _ (fun l hl =>
    getLeaves_of_leaf l ((getLeaves_char s l).mp hl).2)

/-- C7 counterexample: on a built stage (here a leaf, which `build` gave its
terminal output tube), `link` is not rejected: it returns the updated stage,
appending the downstream input tube and stage exactly as before `build`. -/
theorem c7_counterexample_link_after_build_succeeds :
    StageR.link (StageR.build (StageR.init 1 10)) (StageR.init 1 20)
      = StageR.mk 1 10 [TubeEnd.terminal, TubeEnd.toStage 20] [StageR.init 1 20] := by
  rw [StageR.init, StageR.build]
  simp [StageR.buildList, StageR.link, StageR.inTube, StageR.init]

/-- C7 (amended): before `build`, `link` appends the downstream stage's input
tube to the output-tube list and the stage to the downstream list; the code
never freezes the graph, so a `link` after `build` performs exactly the same
append instead of being rejected. -/
theorem c7_link_always_appends :
    ∀ s t : StageR,
      (StageR.link s t).outTubes = s.outTubes ++ [TubeEnd.toStage t.inTube] ∧
      (StageR.link s t).nextStages = s.nextStages ++ [t] ∧
      (StageR.link (StageR.build s) t).outTubes
        = (StageR.build s).outTubes ++ [TubeEnd.toStage t.inTube] ∧
      (StageR.link (StageR.build s) t).nextStages = (StageR.build s).nextStages ++ [t] := by
  intro s t
  cases s with
  | mk sz it ot ns =>
      rw [StageR.build]
      simp [StageR.link, StageR.outTubes, StageR.nextStages]

/-- C8 counterexample: constructing a stage with pool size 0 does not fail;
it returns an ordinary stage handle that stores size 0. -/
theorem c8_counterexample_size_zero_accepted :
    StageR.init 0 5 = StageR.mk 0 5 [] [] ∧ (StageR.init 0 5).size = 0 := by
  constructor
  · rfl
  · rfl

/-- C8 (amended): the constructor validates nothing — for every size,
including 0, it returns a handle storing that size with fresh empty lists;
the invalidity of a size-0 stage surfaces only at runtime, where its empty
worker pool (`Fin 0`) admits no transition at all, so the stage never
consumes its input. -/
theorem c8_constructor_accepts_any_size :
    ∀ size inTube : Nat,
      (StageR.init size inTube).size = size ∧
      (StageR.init size inTube).outTubes = [] ∧
      (StageR.init size inTube).nextStages = [] ∧
      (∀ (dt : Nat → Option Nat) (s s' : UState Nat 0), ¬ UStepAny dt 0 s s') := by
  intro size inTube
  refine ⟨rfl, rfl, rfl, ?_⟩
  rintro dt s s' ⟨i, -⟩
  exact i.elim0

/-- C4: both tube variants deliver an available item in timed mode and an
item directly in blocking mode (a zero or absent timeout is falsy, selecting
the blocking branch); on expiry `TubeP.get` returns `(False, None)` losing
nothing, but `TubeQ.get` raises `AttributeError` — its `except
multiprocessing.Queue.Empty` clause names a nonexistent attribute — instead
of returning `(False, None)` as the claim states. -/
theorem c4_tube_get_timeout_behaviour :
    TubePGet ([3] : List Nat) (some 50) = GetOut.timed true (some 3) [] ∧
    TubePGet ([] : List Nat) (some 50) = GetOut.timed false none [] ∧
    TubePGet ([3] : List Nat) none = GetOut.direct 3 [] ∧
    TubePGet ([3] : List Nat) (some 0) = GetOut.direct 3 [] ∧
    TubePGet ([] : List Nat) none = GetOut.blocked ∧
    TubeQGet ([3] : List Nat) (some 50) = Except.ok (GetOut.timed true (some 3) []) ∧
    TubeQGet ([3] : List Nat) none = Except.ok (GetOut.direct 3 []) ∧
    TubeQGet ([] : List Nat) (some 50) = Except.error PyErr.attributeError := by
  refine ⟨rfl, rfl, rfl, rfl, rfl, rfl, rfl, rfl⟩

theorem stageGetBGo_total (tubes : List (List (Env τ))) :
    ∀ acc, (∀ t ∈ tubes, t ≠ []) →
      ∃ p, stageGetBGo acc tubes = some (p, tubes.map List.tail) := by
  induction tubes with
  | nil => intro acc _; exact ⟨acc, rfl⟩
  | cons t ts ih =>
      intro acc hne
      match t, hne t (by simp) with
      | e :: rest, _ =>
        obtain ⟨p, hp⟩ := ih e.payload (fun u hu => hne u (by simp [hu]))
        exact ⟨p, by simp [stageGetBGo, hp, List.tail]⟩

theorem stageGetBGo_last (tubes : List (List (Env τ))) :
    ∀ acc (e : Env τ) (rest : List (Env τ)),
      tubes.getLast? = some (e :: rest) → (∀ t ∈ tubes, t ≠ []) →
      stageGetBGo acc tubes = some (e.payload, tubes.map List.tail) := by
  induction tubes with
  | nil => intro acc e rest h _; simp at h
  | cons t ts ih =>
      intro acc e rest hlast hne
      match t, hne t (by simp) with
      | e0 :: r0, _ =>
        cases ts with
        | nil =>
            simp only [List.getLast?_singleton, Option.some.injEq] at hlast
            cases hlast
            simp [stageGetBGo, List.tail]
        | cons u us =>
            rw [List.getLast?_cons_cons] at hlast
            have h2 := ih e0.payload e rest hlast (fun v hv => hne v (by simp [hv]))
            simp [stageGetBGo, h2, List.tail]

theorem stageGetTGo_last (tubes : List (List (Env τ))) :
    ∀ acc (e : Env τ) (rest : List (Env τ)),
      tubes.getLast? = some (e :: rest) → (∀ t ∈ tubes, t ≠ []) →
      stageGetTGo acc tubes = ((true, e.payload), tubes.map List.tail) := by
  induction tubes with
  | nil => intro acc e rest h _; simp at h
  | cons t ts ih =>
      intro acc e rest hlast hne
      match t, hne t (by simp) with
      | e0 :: r0, _ =>
        cases ts with
        | nil =>
            simp only [List.getLast?_singleton, Option.some.injEq] at hlast
            cases hlast
            simp [stageGetTGo, List.tail]
        | cons u us =>
            rw [List.getLast?_cons_cons] at hlast
            have h2 := ih (true, e0.payload) e rest hlast (fun v hv => hne v (by simp [hv]))
            simp [stageGetTGo, h2, List.tail]

theorem pipeGetBGo_last (leaves : List (List (List (Env τ)))) :
    ∀ acc (lt : List (List (Env τ))) (e : Env τ) (rest : List (Env τ)),
      leaves.getLast? = some lt → lt.getLast? = some (e :: rest) →
      (∀ l ∈ leaves, ∀ t ∈ l, t ≠ []) →
      pipeGetBGo acc leaves
        = some (e.payload, leaves.map (fun l => l.map List.tail)) := by
  induction leaves with
  | nil => intro acc lt e rest h _ _; simp at h
  | cons ls rest' ih =>
      intro acc lt e rest hlast hlt hne
      cases rest' with
      | nil =>
          simp only [List.getLast?_singleton, Option.some.injEq] at hlast
          subst hlast
          have h1 := stageGetBGo_last ls none e rest hlt (hne ls (by simp))
          simp [pipeGetBGo, stageGetB, h1]
      | cons l2 ls2 =>
          rw [List.getLast?_cons_cons] at hlast
          obtain ⟨p, hp⟩ := stageGetBGo_total ls none (hne ls (by simp))
          have hp' : stageGetB ls = some (p, List.map List.tail ls) := hp
          have h2 := ih p lt e rest hlast hlt (fun l hl => hne l (by simp [hl]))
          have hstep : pipeGetBGo acc (ls :: l2 :: ls2)
              = (pipeGetBGo p (l2 :: ls2)).map
                  (fun q : Option τ × List (List (List (Env τ))) =>
                    (q.1, List.map List.tail ls :: q.2)) := by
            show (match stageGetB ls with
                  | none => none
                  | some (r, ls') =>
                      (pipeGetBGo r (l2 :: ls2)).map
                        (fun q : Option τ × List (List (List (Env τ))) =>
                          (q.1, ls' :: q.2))) = _
            rw [hp']
          rw [hstep, h2]
          rfl

/-- C6: `Stage.get` reads one envelope from each of its output tubes and
returns the payload of the last one (blocking mode returns the payload,
timed mode the pair `(True, payload)`), and `Pipeline.get` performs one
`Stage.get` per leaf stage and returns the payload read from the last leaf —
stated under availability of an envelope on every tube read. -/
theorem c6_stage_and_pipeline_get_last :
    (∀ (τ : Type) (tubes : List (List (Env τ))) (e : Env τ) (rest : List (Env τ)),
      tubes.getLast? = some (e :: rest) → (∀ t ∈ tubes, t ≠ []) →
      stageGetB tubes = some (e.payload, tubes.map List.tail) ∧
      stageGetT tubes = ((true, e.payload), tubes.map List.tail)) ∧
    (∀ (τ : Type) (leaves : List (List (List (Env τ)))) (lt : List (List (Env τ)))
        (e : Env τ) (rest : List (Env τ)),
      leaves.getLast? = some lt → lt.getLast? = some (e :: rest) →
      (∀ l ∈ leaves, ∀ t ∈ l, t ≠ []) →
      pipeGetB leaves = some (e.payload, leaves.map (fun l => l.map List.tail))) := by
  constructor
  · intro τ tubes e rest hlast hne
    exact ⟨stageGetBGo_last tubes none e rest hlast hne,
           stageGetTGo_last tubes (false, none) e rest hlast hne⟩
  · intro τ leaves lt e rest hlast hlt hne
    exact pipeGetBGo_last leaves none lt e rest hlast hlt hne

/-- Witness for C6 at a concrete two-leaf pipeline (leaf 1 has one tube with
payloads `7` then NONE, leaf 2 has one tube with `9` then NONE):
`Pipeline.get` returns the last leaf's first payload, `9`. -/
theorem c6_witness :
    stageGetB [[(⟨some 9, 0⟩ : Env Nat), ⟨none, 0⟩]]
      = some (some 9, [[⟨none, 0⟩]]) ∧
    pipeGetB [[[(⟨some 7, 0⟩ : Env Nat), ⟨none, 0⟩]], [[⟨some 9, 0⟩, ⟨none, 0⟩]]]
      = some (some 9, [[[⟨none, 0⟩]], [[⟨none, 0⟩]]]) := by
  constructor
  · exact (c6_stage_and_pipeline_get_last.1 Nat [[⟨some 9, 0⟩, ⟨none, 0⟩]]
      ⟨some 9, 0⟩ [⟨none, 0⟩] (by rfl) (by simp)).1
  · exact c6_stage_and_pipeline_get_last.2 Nat
      [[[⟨some 7, 0⟩, ⟨none, 0⟩]], [[⟨some 9, 0⟩, ⟨none, 0⟩]]]
      [[⟨some 9, 0⟩, ⟨none, 0⟩]] ⟨some 9, 0⟩ [⟨none, 0⟩] (by rfl) (by rfl) (by simp)

/-- The state after the `count == N` branch of the ordered stop aggregation:
one `(None, 0)` envelope on every output tube, worker exited. -/
def oStopEmitSt (s : OState τ N) (i : Fin N) : OState τ N :=
  { s with outTs := s.outTs.map (fun o => o ++ [⟨none, 0⟩]),
           wpc := Function.update s.wpc i .done }

/-- The state after the `count != N` branch: `(None, count)` re-enqueued on
the stage's own input tube, worker exited. -/
def oStopPassSt (s : OState τ N) (i : Fin N) (c : Nat) : OState τ N :=
  { s with inT := s.inT ++ [⟨none, c + 1⟩],
           wpc := Function.update s.wpc i .done }

/-- Unordered analogue of `oStopEmitSt`. -/
def uStopEmitSt (s : UState τ N) (i : Fin N) : UState τ N :=
  { s with outTs := s.outTs.map (fun o => o ++ [⟨none, 0⟩]),
           wpc := Function.update s.wpc i .done }

/-- Unordered analogue of `oStopPassSt`. -/
def uStopPassSt (s : UState τ N) (i : Fin N) (c : Nat) : UState τ N :=
  { s with inT := s.inT ++ [⟨none, c + 1⟩],
           wpc := Function.update s.wpc i .done }

/-- C2: in both worker kinds, a worker that has dequeued the stop envelope
`(None, c)` has exactly one possible next action: it increments the count,
and if `c + 1 = N` it puts one `(None, 0)` envelope on every output tube and
exits, otherwise it re-enqueues `(None, c + 1)` onto its own input tube and
exits. -/
theorem c2_stop_aggregation_protocol :
    (∀ (τ : Type) (dt : τ → Option τ) (N : Nat) (i : Fin N) (s : OState τ N) (c : Nat),
      s.wpc i = .stopAgg c →
      ∀ s', OStep dt N i s s' ↔
        s' = (if c + 1 = N then oStopEmitSt s i else oStopPassSt s i c)) ∧
    (∀ (τ : Type) (dt : τ → Option τ) (N : Nat) (i : Fin N) (s : UState τ N) (c : Nat),
      s.wpc i = .gotE ⟨none, c⟩ →
      ∀ s', UStep dt N i s s' ↔
        s' = (if c + 1 = N then uStopEmitSt s i else uStopPassSt s i c)) := by
  constructor
  · intro τ dt N i s c hpc s'
    constructor
    · intro hstep
      cases hstep with
      | readTask s i t c' rest h1 h2 h3 => rw [hpc] at h1; exact absurd h1 (by simp)
      | readStop s i c' rest h1 h2 h3 => rw [hpc] at h1; exact absurd h1 (by simp)
      | readFail s i h1 h2 h3 h4 => rw [hpc] at h1; exact absurd h1 (by simp)
      | workStep s i t h1 => rw [hpc] at h1; exact absurd h1 (by simp)
      | pubStep s i r h1 h2 => rw [hpc] at h1; exact absurd h1 (by simp)
      | stopPass s i c' h1 h2 =>
          rw [hpc] at h1
          cases h1
          rw [if_neg h2]
          rfl
      | stopLast s i c' h1 h2 =>
          rw [hpc] at h1
          cases h1
          rw [if_pos h2]
          rfl
    · intro hs'
      by_cases hN : c + 1 = N
      · rw [if_pos hN] at hs'
        subst hs'
        exact OStep.stopLast s i c hpc hN
      · rw [if_neg hN] at hs'
        subst hs'
        exact OStep.stopPass s i c hpc hN
  · intro τ dt N i s c hpc s'
    constructor
    · intro hstep
      cases hstep with
      | uGet s i e rest h1 h2 => rw [hpc] at h1; exact absurd h1 (by simp)
      | uGetFail s i h1 h2 h3 => rw [hpc] at h1; exact absurd h1 (by simp)
      | uTask s i t c' h1 => rw [hpc] at h1; simp at h1
      | uPub s i r h1 => rw [hpc] at h1; exact absurd h1 (by simp)
      | uStopEmit s i c' h1 h2 =>
          rw [hpc] at h1
          simp only [UPC.gotE.injEq, Env.mk.injEq] at h1
          cases h1.2
          rw [if_pos h2]
          rfl
      | uStopPass s i c' h1 h2 =>
          rw [hpc] at h1
          simp only [UPC.gotE.injEq, Env.mk.injEq] at h1
          cases h1.2
          rw [if_neg h2]
          rfl
    · intro hs'
      by_cases hN : c + 1 = N
      · rw [if_pos hN] at hs'
        subst hs'
        exact UStep.uStopEmit s i c hpc hN
      · rw [if_neg hN] at hs'
        subst hs'
        exact UStep.uStopPass s i c hpc hN

/-- A concrete ordered-stage state with the single worker holding the stop
envelope `(None, 0)`. -/
def c2wOState : OState Nat 1 :=
  { inT := []
    outTs := [[], []]
    inTok := fun _ => true
    outTok := fun _ => true
    wpc := fun _ => .stopAgg 0
    reads := 1
    pubs := 0
    broken := false }

/-- A concrete unordered-stage state (two workers) with worker 0 holding the
stop envelope `(None, 0)`. -/
def c2wUState : UState Nat 2 :=
  { inT := []
    outTs := [[]]
    wpc := fun j => if j.val = 0 then .gotE ⟨none, 0⟩ else .idle
    broken := false }

theorem c2_witness :
    OStep (fun n : Nat => some n) 1 0 c2wOState (oStopEmitSt c2wOState 0) ∧
    UStep (fun n : Nat => some n) 2 0 c2wUState (uStopPassSt c2wUState 0 0) := by
  constructor
  · exact (c2_stop_aggregation_protocol.1 Nat (fun n => some n) 1 0 c2wOState 0 rfl
      (oStopEmitSt c2wOState 0)).mpr (by norm_num)
  · exact (c2_stop_aggregation_protocol.2 Nat (fun n => some n) 2 0 c2wUState 0 rfl
      (uStopPassSt c2wUState 0 0)).mpr (by norm_num)

theorem oReach_out_count0 (dt : τ → Option τ) (N M : Nat) (envs : List (Env τ))
    (brk : Bool) (s : OState τ N)
    (h : OReach dt N (oInit0 N M envs brk) s) :
    ∀ o ∈ s.outTs, ∀ e ∈ o, e.count = 0 := by
  induction h with
  | refl =>
      intro o ho e he
      have : o = [] := List.eq_of_mem_replicate ho
      subst this
      simp at he
  | tail h1 h2 ih =>
      obtain ⟨i, hstep⟩ := h2
      cases hstep with
      | readTask s i t c rest p1 p2 p3 => exact ih
      | readStop s i c rest p1 p2 p3 => exact ih
      | readFail s i p1 p2 p3 p4 => exact ih
      | workStep s i t p1 => exact ih
      | pubStep s i r p1 p2 =>
          intro o ho e he
          obtain ⟨o0, ho0, rfl⟩ := List.mem_map.mp ho
          rcases List.mem_append.mp he with h | h
          · exact ih o0 ho0 e h
          · rw [List.mem_singleton.mp h]
      | stopPass s i c p1 p2 => exact ih
      | stopLast s i c p1 p2 =>
          intro o ho e he
          obtain ⟨o0, ho0, rfl⟩ := List.mem_map.mp ho
          rcases List.mem_append.mp he with h | h
          · exact ih o0 ho0 e h
          · rw [List.mem_singleton.mp h]

theorem uReach_out_count0 (dt : τ → Option τ) (N M : Nat) (envs : List (Env τ))
    (brk : Bool) (s : UState τ N)
    (h : UReach dt N (uInit0 N M envs brk) s) :
    ∀ o ∈ s.outTs, ∀ e ∈ o, e.count = 0 := by
  induction h with
  | refl =>
      intro o ho e he
      have : o = [] := List.eq_of_mem_replicate ho
      subst this
      simp at he
  | tail h1 h2 ih =>
      obtain ⟨i, hstep⟩ := h2
      cases hstep with
      | uGet s i e rest p1 p2 => exact ih
      | uGetFail s i p1 p2 p3 => exact ih
      | uTask s i t c p1 => exact ih
      | uPub s i r p1 =>
          intro o ho e he
          obtain ⟨o0, ho0, rfl⟩ := List.mem_map.mp ho
          rcases List.mem_append.mp he with h | h
          · exact ih o0 ho0 e h
          · rw [List.mem_singleton.mp h]
      | uStopEmit s i c p1 p2 =>
          intro o ho e he
          obtain ⟨o0, ho0, rfl⟩ := List.mem_map.mp ho
          rcases List.mem_append.mp he with h | h
          · exact ih o0 ho0 e h
          · rw [List.mem_singleton.mp h]
      | uStopPass s i c p1 p2 => exact ih

/-- C10: in both stage kinds, every NONE envelope a stage ever places on an
output tube carries count 0 (the ordered stop emission writes `(None, 0)`
literally; both `putResult`s use the default `count=0`), so the aggregated
stop count never leaks downstream and the next stage starts counting from
zero. -/
theorem c10_emitted_stops_carry_count_zero :
    (∀ (τ : Type) (dt : τ → Option τ) (N M : Nat) (envs : List (Env τ)) (brk : Bool)
        (s : OState τ N), OReach dt N (oInit0 N M envs brk) s →
        ∀ o ∈ s.outTs, ∀ e ∈ o, e.payload = none → e.count = 0) ∧
    (∀ (τ : Type) (dt : τ → Option τ) (N M : Nat) (envs : List (Env τ)) (brk : Bool)
        (s : UState τ N), UReach dt N (uInit0 N M envs brk) s →
        ∀ o ∈ s.outTs, ∀ e ∈ o, e.payload = none → e.count = 0) := by
  constructor
  · intro τ dt N M envs brk s h o ho e he _
    exact oReach_out_count0 dt N M envs brk s h o ho e he
  · intro τ dt N M envs brk s h o ho e he _
    exact uReach_out_count0 dt N M envs brk s h o ho e he

def c10wS0 : OState Nat 1 := oInit0 1 1 [⟨none, 0⟩] false

def c10wS1 : OState Nat 1 :=
  { c10wS0 with inT := [], inTok := passTok c10wS0.inTok 0,
                wpc := Function.update c10wS0.wpc 0 (.stopAgg 0),
                reads := c10wS0.reads + 1 }

def c10wS2 : OState Nat 1 :=
  { c10wS1 with outTs := c10wS1.outTs.map (fun o => o ++ [⟨none, 0⟩]),
                wpc := Function.update c10wS1.wpc 0 .done }

theorem c10_witness :
    OReach (fun n : Nat => some n) 1 (oInit0 1 1 [⟨none, 0⟩] false) c10wS2 ∧
    (⟨none, 0⟩ : Env Nat) ∈ c10wS2.outTs.head! ∧
    ∀ o ∈ c10wS2.outTs, ∀ e ∈ o, e.payload = none → e.count = 0 := by
  have h1 : OStepAny (fun n : Nat => some n) 1 c10wS0 c10wS1 :=
    ⟨0, OStep.readStop c10wS0 0 0 [] rfl rfl rfl⟩
  have h2 : OStepAny (fun n : Nat => some n) 1 c10wS1 c10wS2 :=
    ⟨0, OStep.stopLast c10wS1 0 0 (by decide) rfl⟩
  have hr : OReach (fun n : Nat => some n) 1 c10wS0 c10wS2 :=
    Relation.ReflTransGen.tail (Relation.ReflTransGen.tail Relation.ReflTransGen.refl h1) h2
  refine ⟨hr, by decide, ?_⟩
  exact c10_emitted_stops_carry_count_zero.1 Nat (fun n => some n) 1 1 [⟨none, 0⟩] false
    c10wS2 hr

theorem sum_comp_update [Fintype ι] [DecidableEq ι] (w : ι → α) (i : ι) (v : α)
    (F : α → Nat) :
    (∑ j, F (Function.update w i v j)) + F (w i) = (∑ j, F (w j)) + F v := by
  have he : (fun j => F (Function.update w i v j))
      = Function.update (fun j => F (w j)) i (F v) := by
    funext j
    by_cases hj : j = i
    · subst hj; simp
    · simp [Function.update_noteq hj]
  rw [show (∑ j, F (Function.update w i v j))
      = ∑ j, Function.update (fun j => F (w j)) i (F v) j from by rw [he]]
  rw [Finset.sum_update_of_mem (Finset.mem_univ i)]
  rw [Finset.sum_eq_sum_diff_singleton_add (Finset.mem_univ i) (fun j => F (w j))]
  omega

/-- Loop-progress weight of an unordered worker's program counter. -/
def uphi : UPC τ → Nat
  | .done => 0
  | .idle => 4
  | .pub _ => 5
  | .gotE _ => 7

/-- One-shot credit for the exception path: spent when a worker turns to the
stop envelope (after which it can never read again). -/
def upsi : UPC τ → Nat
  | .done => 0
  | .idle => 4
  | .pub _ => 4
  | .gotE e => match e.payload with | none => 0 | some _ => 4

def upcF : UPC τ → Nat := fun pc => uphi pc + upsi pc

/-- Termination measure of the unordered stage: every transition strictly
decreases it, broken tube or not. -/
def muU (s : UState τ N) : Nat := 4 * s.inT.length + ∑ j, upcF (s.wpc j)

theorem uStep_mu_lt (dt : τ → Option τ) (N : Nat) (i : Fin N) (s s' : UState τ N)
    (h : UStep dt N i s s') : muU s' < muU s := by
  cases h with
  | uGet s i e rest p1 p2 =>
      have hs := sum_comp_update s.wpc i (UPC.gotE e) upcF
      rw [p1] at hs
      have hb : upcF (UPC.gotE e) ≤ 11 := by
        cases e with
        | mk pl c => cases pl <;> simp [upcF, uphi, upsi]
      simp only [muU, p2] at *
      simp only [List.length_cons]
      have hidle : upcF (UPC.idle : UPC τ) = 8 := by simp [upcF, uphi, upsi]
      omega
  | uGetFail s i p1 p2 p3 =>
      have hs := sum_comp_update s.wpc i (UPC.gotE ⟨none, 0⟩) upcF
      rw [p1] at hs
      have hg : upcF (UPC.gotE (⟨none, 0⟩ : Env τ)) = 7 := by simp [upcF, uphi, upsi]
      have hidle : upcF (UPC.idle : UPC τ) = 8 := by simp [upcF, uphi, upsi]
      simp only [muU] at *
      omega
  | uTask s i t c p1 =>
      have hs := sum_comp_update s.wpc i (afterTaskU dt t) upcF
      rw [p1] at hs
      have hb : upcF (afterTaskU dt t) ≤ 9 := by
        cases hdt : dt t <;> simp [afterTaskU, hdt, upcF, uphi, upsi]
      have hg : upcF (UPC.gotE (⟨some t, c⟩ : Env τ)) = 11 := by simp [upcF, uphi, upsi]
      simp only [muU] at *
      omega
  | uPub s i r p1 =>
      have hs := sum_comp_update s.wpc i UPC.idle upcF
      rw [p1] at hs
      have hp : upcF (UPC.pub r : UPC τ) = 9 := by simp [upcF, uphi, upsi]
      have hidle : upcF (UPC.idle : UPC τ) = 8 := by simp [upcF, uphi, upsi]
      simp only [muU] at *
      omega
  | uStopEmit s i c p1 p2 =>
      have hs := sum_comp_update s.wpc i UPC.done upcF
      rw [p1] at hs
      have hg : upcF (UPC.gotE (⟨none, c⟩ : Env τ)) = 7 := by simp [upcF, uphi, upsi]
      have hd : upcF (UPC.done : UPC τ) = 0 := by simp [upcF, uphi, upsi]
      simp only [muU] at *
      omega
  | uStopPass s i c p1 p2 =>
      have hs := sum_comp_update s.wpc i UPC.done upcF
      rw [p1] at hs
      have hg : upcF (UPC.gotE (⟨none, c⟩ : Env τ)) = 7 := by simp [upcF, uphi, upsi]
      have hd : upcF (UPC.done : UPC τ) = 0 := by simp [upcF, uphi, upsi]
      simp only [muU] at *
      simp only [List.length_append, List.length_singleton]
      omega

/-- Loop-progress weight of an ordered worker's program counter. -/
def ophi : OPC τ → Nat
  | .done => 0
  | .waitIn => 1
  | .waitOut _ => 3
  | .work _ => 4
  | .stopAgg _ => 5

/-- Termination measure of the ordered stage relative to the total envelope
supply `K + N` (`K` tasks plus one stop read by each of the `N` workers):
with a healthy tube every transition strictly decreases it. -/
def muO (K : Nat) (s : OState τ N) : Nat :=
  10 * (K + N - s.reads) + ∑ j, ophi (s.wpc j)

theorem oStep_mu_lt (dt : τ → Option τ) (N K : Nat) (i : Fin N) (s s' : OState τ N)
    (h : OStep dt N i s s') (hb : s.broken = false)
    (hr : s.inT ≠ [] → s.reads < K + N) : muO K s' < muO K s := by
  cases h with
  | readTask s i t c rest p1 p2 p3 =>
      have hlt : s.reads < K + N := hr (by rw [p3]; simp)
      have hs := sum_comp_update s.wpc i (OPC.work t) ophi
      rw [p1] at hs
      have h1 : ophi (OPC.waitIn : OPC τ) = 1 := rfl
      have h2 : ophi (OPC.work t : OPC τ) = 4 := rfl
      simp only [muO] at *
      omega
  | readStop s i c rest p1 p2 p3 =>
      have hlt : s.reads < K + N := hr (by rw [p3]; simp)
      have hs := sum_comp_update s.wpc i (OPC.stopAgg c) ophi
      rw [p1] at hs
      have h1 : ophi (OPC.waitIn : OPC τ) = 1 := rfl
      have h2 : ophi (OPC.stopAgg c : OPC τ) = 5 := rfl
      simp only [muO] at *
      omega
  | readFail s i p1 p2 p3 p4 =>
      rw [hb] at p4
      exact absurd p4 (by simp)
  | workStep s i t p1 =>
      have hs := sum_comp_update s.wpc i (afterTask dt t) ophi
      rw [p1] at hs
      have h1 : ophi (OPC.work t : OPC τ) = 4 := rfl
      have h2 : ophi (afterTask dt t) ≤ 3 := by
        cases hdt : dt t <;> simp [afterTask, hdt, ophi]
      simp only [muO] at *
      omega
  | pubStep s i r p1 p2 =>
      have hs := sum_comp_update s.wpc i OPC.waitIn ophi
      rw [p1] at hs
      have h1 : ophi (OPC.waitOut r : OPC τ) = 3 := rfl
      have h2 : ophi (OPC.waitIn : OPC τ) = 1 := rfl
      simp only [muO] at *
      omega
  | stopPass s i c p1 p2 =>
      have hs := sum_comp_update s.wpc i OPC.done ophi
      rw [p1] at hs
      have h1 : ophi (OPC.stopAgg c : OPC τ) = 5 := rfl
      have h2 : ophi (OPC.done : OPC τ) = 0 := rfl
      simp only [muO] at *
      omega
  | stopLast s i c p1 p2 =>
      have hs := sum_comp_update s.wpc i OPC.done ophi
      rw [p1] at hs
      have h1 : ophi (OPC.stopAgg c : OPC τ) = 5 := rfl
      have h2 : ophi (OPC.done : OPC τ) = 0 := rfl
      simp only [muO] at *
      omega

/-- Exit indicator of an unordered worker. -/
def isDoneU : UPC τ → Nat
  | .done => 1
  | _ => 0

/-- Number of workers of the unordered stage that have exited. -/
def dcF (w : Fin N → UPC τ) : Nat := ∑ j, isDoneU (w j)

theorem isDoneU_le_one (pc : UPC τ) : isDoneU pc ≤ 1 := by
  cases pc <;> simp [isDoneU]

theorem isDoneU_eq_zero (pc : UPC τ) (h : pc ≠ UPC.done) : isDoneU pc = 0 := by
  cases pc <;> simp_all [isDoneU]

theorem dcF_update_done (w : Fin N → UPC τ) (i : Fin N) (h : w i ≠ UPC.done) :
    dcF (Function.update w i UPC.done) = dcF w + 1 := by
  have hs := sum_comp_update w i UPC.done isDoneU
  have h0 := isDoneU_eq_zero (w i) h
  have h1 : isDoneU (UPC.done : UPC τ) = 1 := rfl
  simp only [dcF]
  omega

theorem dcF_update_other (w : Fin N → UPC τ) (i : Fin N) (v : UPC τ)
    (h1 : w i ≠ UPC.done) (h2 : v ≠ UPC.done) :
    dcF (Function.update w i v) = dcF w := by
  have hs := sum_comp_update w i v isDoneU
  have h0 := isDoneU_eq_zero (w i) h1
  have h0v := isDoneU_eq_zero v h2
  simp only [dcF]
  omega

theorem allDone_of_dcF (w : Fin N → UPC τ) (h : dcF w = N) : ∀ i, w i = UPC.done := by
  intro i
  by_contra hne
  have h0 := isDoneU_eq_zero (w i) hne
  have hsplit := Finset.sum_eq_sum_diff_singleton_add (Finset.mem_univ i)
    (fun j => isDoneU (w j))
  have hle : ∑ j ∈ Finset.univ \ {i}, isDoneU (w j)
      ≤ (Finset.univ \ {i} : Finset (Fin N)).card • 1 :=
    Finset.sum_le_card_nsmul _ _ 1 (fun x _ => isDoneU_le_one (w x))
  have hcard : (Finset.univ \ {i} : Finset (Fin N)).card = N - 1 := by
    rw [Finset.card_sdiff (by simp)]
    simp
  rw [hcard, smul_eq_mul, mul_one] at hle
  have hN : 0 < N := i.pos
  rw [dcF] at h
  omega

/-- Invariant of a healthy unordered stage whose input was fed tasks followed
by one stop sentinel: the single circulating stop envelope is either last on
the input tube or held by exactly one worker, and its count equals the number
of workers that have already exited — until the final emission, after which
all workers are done. -/
def UInv (N : Nat) (s : UState τ N) : Prop :=
  s.broken = false ∧
  (((∃ pre, s.inT = pre ++ [⟨none, dcF s.wpc⟩] ∧ ∀ e ∈ pre, e.payload ≠ none) ∧
      (∀ i e, s.wpc i = UPC.gotE e → e.payload ≠ none))
    ∨ ((∀ e ∈ s.inT, e.payload ≠ none) ∧
       ∃ i c, s.wpc i = UPC.gotE ⟨none, c⟩ ∧ c = dcF s.wpc ∧
         (∀ j e, j ≠ i → s.wpc j = UPC.gotE e → e.payload ≠ none))
    ∨ allDoneU s)

theorem uInv_init (N M : Nat) (xs : List τ) (hN : 0 < N) :
    UInv N (uInit0 N M (xs.map (fun x => ⟨some x, 0⟩) ++ [⟨none, 0⟩]) false) := by
  refine ⟨rfl, Or.inl ⟨⟨xs.map (fun x => ⟨some x, 0⟩), ?_, ?_⟩, ?_⟩⟩
  · have hdc : dcF (fun _ : Fin N => (UPC.idle : UPC τ)) = 0 := by
      simp [dcF, isDoneU]
    rw [show (uInit0 N M (xs.map (fun x => ⟨some x, 0⟩) ++ [⟨none, 0⟩]) false).wpc
        = (fun _ : Fin N => (UPC.idle : UPC τ)) from rfl, hdc]
    rfl
  · intro e he
    obtain ⟨x, _, rfl⟩ := List.mem_map.mp he
    simp
  · intro i e hie
    exact absurd hie (by simp [uInit0])

theorem uInv_step (dt : τ → Option τ) (N : Nat) (i : Fin N) (s s' : UState τ N)
    (hinv : UInv N s) (h : UStep dt N i s s') : UInv N s' := by
  obtain ⟨hbrk, halt⟩ := hinv
  cases h with
  | uGet s i e rest p1 p2 =>
      have hdc : dcF (Function.update s.wpc i (UPC.gotE e)) = dcF s.wpc :=
        dcF_update_other s.wpc i _ (by rw [p1]; simp) (by simp)
      refine ⟨hbrk, ?_⟩
      dsimp only
      rcases halt with ⟨⟨pre, hpre, hsome⟩, hhold⟩ | ⟨hall, j0, c, hj0, hc, hoth⟩ | hall
      · cases pre with
        | nil =>
            simp only [List.nil_append] at hpre
            rw [p2] at hpre
            cases hpre
            refine Or.inr (Or.inl ⟨by simp, i, dcF s.wpc, ?_, ?_, ?_⟩)
            · simp [hdc]
            · simp [hdc]
            · intro j e' hji hj
              rw [Function.update_noteq hji] at hj
              exact hhold j e' hj
        | cons p pre' =>
            rw [p2] at hpre
            injection hpre with hp hrest
            refine Or.inl ⟨⟨pre', by rw [hdc, hrest]; rfl, fun e' he' => hsome e' (by simp [he'])⟩, ?_⟩
            intro j e' hj
            by_cases hji : j = i
            · subst hji
              rw [Function.update_same] at hj
              injection hj with he
              subst he
              subst hp
              exact hsome e (by simp)
            · rw [Function.update_noteq hji] at hj
              exact hhold j e' hj
      · have hji : j0 ≠ i := by
          intro hji
          rw [hji, p1] at hj0
          exact absurd hj0 (by simp)
        refine Or.inr (Or.inl ⟨?_, j0, c, ?_, by rw [hdc]; exact hc, ?_⟩)
        · intro e' he'
          exact hall e' (by rw [p2]; simp [he'])
        · rw [Function.update_noteq hji]; exact hj0
        · intro j e' hjj hj
          by_cases hj2 : j = i
          · subst hj2
            rw [Function.update_same] at hj
            injection hj with he
            subst he
            exact hall e (by rw [p2]; simp)
          · rw [Function.update_noteq hj2] at hj
            exact hoth j e' hjj hj
      · exact absurd (hall i) (by rw [p1]; simp)
  | uGetFail s i p1 p2 p3 =>
      rw [hbrk] at p3
      exact absurd p3 (by simp)
  | uTask s i t c p1 =>
      have hafter : afterTaskU dt t ≠ UPC.done := by
        cases hdt : dt t <;> simp [afterTaskU, hdt]
      have hafter2 : ∀ e', afterTaskU dt t ≠ UPC.gotE e' := by
        intro e'
        cases hdt : dt t <;> simp [afterTaskU, hdt]
      have hdc : dcF (Function.update s.wpc i (afterTaskU dt t)) = dcF s.wpc :=
        dcF_update_other s.wpc i _ (by rw [p1]; simp) hafter
      refine ⟨hbrk, ?_⟩
      dsimp only
      rcases halt with ⟨⟨pre, hpre, hsome⟩, hhold⟩ | ⟨hall, j0, c', hj0, hc, hoth⟩ | hall
      · refine Or.inl ⟨⟨pre, by rw [hdc]; exact hpre, hsome⟩, ?_⟩
        intro j e' hj
        by_cases hji : j = i
        · subst hji
          rw [Function.update_same] at hj
          exact absurd hj (hafter2 e')
        · rw [Function.update_noteq hji] at hj
          exact hhold j e' hj
      · have hji : j0 ≠ i := by
          intro hji
          rw [hji, p1] at hj0
          simp at hj0
        refine Or.inr (Or.inl ⟨hall, j0, c', ?_, by rw [hdc]; exact hc, ?_⟩)
        · rw [Function.update_noteq hji]; exact hj0
        · intro j e' hjj hj
          by_cases hj2 : j = i
          · subst hj2
            rw [Function.update_same] at hj
            exact absurd hj (hafter2 e')
          · rw [Function.update_noteq hj2] at hj
            exact hoth j e' hjj hj
      · exact absurd (hall i) (by rw [p1]; simp)
  | uPub s i r p1 =>
      have hdc : dcF (Function.update s.wpc i UPC.idle) = dcF s.wpc :=
        dcF_update_other s.wpc i _ (by rw [p1]; simp) (by simp)
      refine ⟨hbrk, ?_⟩
      dsimp only
      rcases halt with ⟨⟨pre, hpre, hsome⟩, hhold⟩ | ⟨hall, j0, c', hj0, hc, hoth⟩ | hall
      · refine Or.inl ⟨⟨pre, by rw [hdc]; exact hpre, hsome⟩, ?_⟩
        intro j e' hj
        by_cases hji : j = i
        · subst hji
          rw [Function.update_same] at hj
          exact absurd hj (by simp)
        · rw [Function.update_noteq hji] at hj
          exact hhold j e' hj
      · have hji : j0 ≠ i := by
          intro hji
          rw [hji, p1] at hj0
          simp at hj0
        refine Or.inr (Or.inl ⟨hall, j0, c', ?_, by rw [hdc]; exact hc, ?_⟩)
        · rw [Function.update_noteq hji]; exact hj0
        · intro j e' hjj hj
          by_cases hj2 : j = i
          · subst hj2
            rw [Function.update_same] at hj
            exact absurd hj (by simp)
          · rw [Function.update_noteq hj2] at hj
            exact hoth j e' hjj hj
      · exact absurd (hall i) (by rw [p1]; simp)
  | uStopEmit s i c p1 p2 =>
      refine ⟨hbrk, ?_⟩
      dsimp only
      rcases halt with ⟨⟨pre, hpre, hsome⟩, hhold⟩ | ⟨hall, j0, c', hj0, hc, hoth⟩ | hall
      · exact absurd rfl (hhold i ⟨none, c⟩ p1)
      · have hij : i = j0 := by
          by_contra hne
          exact absurd rfl (hoth i ⟨none, c⟩ (by exact hne) p1)
        have hcc : c = c' := by
          rw [hij] at p1
          rw [p1] at hj0
          injection hj0 with he
          injection he with hpl hct
        have hdc : dcF (Function.update s.wpc i UPC.done) = dcF s.wpc + 1 :=
          dcF_update_done s.wpc i (by rw [p1]; simp)
        refine Or.inr (Or.inr ?_)
        intro j
        have hN : dcF (Function.update s.wpc i UPC.done) = N := by
          rw [hdc, ← hc, ← hcc]
          exact p2
        exact allDone_of_dcF _ hN j
      · exact absurd (hall i) (by rw [p1]; simp)
  | uStopPass s i c p1 p2 =>
      refine ⟨hbrk, ?_⟩
      dsimp only
      rcases halt with ⟨⟨pre, hpre, hsome⟩, hhold⟩ | ⟨hall, j0, c', hj0, hc, hoth⟩ | hall
      · exact absurd rfl (hhold i ⟨none, c⟩ p1)
      · have hij : i = j0 := by
          by_contra hne
          exact absurd rfl (hoth i ⟨none, c⟩ (by exact hne) p1)
        have hcc : c = c' := by
          rw [hij] at p1
          rw [p1] at hj0
          injection hj0 with he
          injection he with hpl hct
        have hdc : dcF (Function.update s.wpc i UPC.done) = dcF s.wpc + 1 :=
          dcF_update_done s.wpc i (by rw [p1]; simp)
        refine Or.inl ⟨⟨s.inT, ?_, hall⟩, ?_⟩
        · rw [hdc, ← hc, ← hcc]
        · intro j e' hj
          by_cases hji : j = i
          · subst hji
            rw [Function.update_same] at hj
            exact absurd hj (by simp)
          · rw [Function.update_noteq hji] at hj
            exact hoth j e' (by rw [hij] at hji; exact hji) hj
      · exact absurd (hall i) (by rw [p1]; simp)

theorem uInv_reach (dt : τ → Option τ) (N M : Nat) (xs : List τ) (hN : 0 < N)
    (s : UState τ N)
    (h : UReach dt N (uInit0 N M (xs.map (fun x => ⟨some x, 0⟩) ++ [⟨none, 0⟩]) false) s) :
    UInv N s := by
  induction h with
  | refl => exact uInv_init N M xs hN
  | tail h1 h2 ih =>
      obtain ⟨i, hstep⟩ := h2
      exact uInv_step dt N i _ _ ih hstep

/-- Progress for the unordered stage: if some worker has not exited, a
transition is enabled — with a broken tube unconditionally (the exception
path is always available to an idle worker), with a healthy tube by the
stop-conservation invariant. -/
theorem uProgress (dt : τ → Option τ) (N : Nat) (s : UState τ N)
    (h : ¬ allDoneU s) (hOK : s.broken = true ∨ UInv N s) :
    ∃ i s', UStep dt N i s s' := by
  simp only [allDoneU, not_forall] at h
  obtain ⟨i, hi⟩ := h
  cases hpc : s.wpc i with
  | done => exact absurd hpc hi
  | pub r => exact ⟨i, _, UStep.uPub s i r hpc⟩
  | gotE e =>
      cases e with
      | mk pl c =>
          cases pl with
          | none =>
              by_cases hc : c + 1 = N
              · exact ⟨i, _, UStep.uStopEmit s i c hpc hc⟩
              · exact ⟨i, _, UStep.uStopPass s i c hpc hc⟩
          | some t => exact ⟨i, _, UStep.uTask s i t c hpc⟩
  | idle =>
      cases hT : s.inT with
      | cons e rest => exact ⟨i, _, UStep.uGet s i e rest hpc hT⟩
      | nil =>
          cases hOK with
          | inl hbrk => exact ⟨i, _, UStep.uGetFail s i hpc hT hbrk⟩
          | inr hinv =>
              rcases hinv.2 with ⟨⟨pre, hpre, _⟩, _⟩ | ⟨_, j0, c, hj0, _, _⟩ | hall
              · rw [hT] at hpre
                exact absurd hpre.symm (by simp)
              · by_cases hc : c + 1 = N
                · exact ⟨j0, _, UStep.uStopEmit s j0 c hj0 hc⟩
                · exact ⟨j0, _, UStep.uStopPass s j0 c hj0 hc⟩
              · exact absurd (hall i) hi

/-- Is a worker inside the stop aggregation (stop envelope in hand)? -/
def isStopPC : OPC τ → Bool
  | .stopAgg _ => true
  | _ => false

/-- Some worker of the ordered stage currently holds the stop envelope. -/
def handB (s : OState τ N) : Bool := decide (∃ i, isStopPC (s.wpc i) = true)

/-- Input-tube contents of a healthy ordered stage fed `xs ++ [NONE]`, as a
function of the number `r` of envelopes consumed and of whether the stop is
currently in a worker's hand. -/
def inSpec (N : Nat) (xs : List τ) (r : Nat) (hand : Bool) : List (Env τ) :=
  if r ≤ xs.length then (xs.drop r).map (fun x => ⟨some x, 0⟩) ++ [⟨none, 0⟩]
  else if hand then []
  else if r < xs.length + N then [⟨none, r - xs.length⟩]
  else []

/-- Output-tube contents of the ordered stage after `p` publishes, before or
after the final stop emission. -/
def outSpecO (xs : List τ) (f : τ → τ) (p : Nat) (emitted : Bool) : List (Env τ) :=
  (xs.take p).map (fun x => ⟨some (f x), 0⟩) ++ (if emitted then [⟨none, 0⟩] else [])

/-- Has the final stop emission happened?  Exactly when all `K + N` reads are
done and nobody holds the stop any more. -/
def emittedB (N : Nat) (xs : List τ) (s : OState τ N) : Bool :=
  decide (s.reads = xs.length + N) && !(handB s)

/-- Per-worker invariant of the ordered ring protocol, relative to the ghost
read count `r` and publish count `p`.  The lock rings serialize reads and
publishes round-robin, so read number `q` belongs to worker `q % N`. -/
def OWInv (N : Nat) (xs : List τ) (f : τ → τ) (r p : Nat) (i : Fin N) : OPC τ → Prop
  | .waitIn => ∀ q, q < r → q % N = i.val → q < p
  | .work t => ∃ q, q % N = i.val ∧ p ≤ q ∧ q < r ∧ xs[q]? = some t ∧
      (∀ q', q' < r → q' % N = i.val → q' ≤ q) ∧
      (∀ q', q' < q → q' % N = i.val → q' < p)
  | .waitOut rv => ∃ q, q % N = i.val ∧ p ≤ q ∧ q < r ∧
      (∃ x, xs[q]? = some x ∧ rv = f x) ∧
      (∀ q', q' < r → q' % N = i.val → q' ≤ q) ∧
      (∀ q', q' < q → q' % N = i.val → q' < p)
  | .stopAgg c => xs.length < r ∧ c + xs.length + 1 = r ∧ i.val = (r - 1) % N ∧
      (∀ q', q' + 1 < r → q' % N = i.val → q' < p)
  | .done => (∃ m, xs.length ≤ m ∧ m < r ∧ m % N = i.val) ∧
      (∀ q, q < r → q % N = i.val → q < xs.length → q < p)

/-- Global invariant of a healthy ordered stage fed `xs ++ [NONE]`, with
non-dropping `doTask x = some (f x)`. -/
structure OInv (N : Nat) (xs : List τ) (f : τ → τ) (s : OState τ N) : Prop where
  brk : s.broken = false
  rle : s.reads ≤ xs.length + N
  ple : s.pubs ≤ s.reads
  plk : s.pubs ≤ xs.length
  gap : min s.reads xs.length ≤ s.pubs + N
  itk : ∀ j : Fin N, s.inTok j = true ↔ j.val = s.reads % N
  otk : ∀ j : Fin N, s.outTok j = true ↔ j.val = s.pubs % N
  wv : ∀ i : Fin N, OWInv N xs f s.reads s.pubs i (s.wpc i)
  tin : s.inT = inSpec N xs s.reads (handB s)
  tout : ∀ o ∈ s.outTs, o = outSpecO xs f s.pubs (emittedB N xs s)

theorem add_le_of_mod_eq (N q r : Nat) (hN : 0 < N) (hmod : q % N = r % N)
    (hlt : q < r) : q + N ≤ r := by
  have hdvd : N ∣ r - q := (Nat.modEq_iff_dvd' hlt.le).mp hmod
  have hpos : 0 < r - q := by omega
  have := Nat.le_of_dvd hpos hdvd
  omega

theorem eq_of_mod_eq_window (N p q : Nat) (hN : 0 < N) (hmod : q % N = p % N)
    (h1 : p ≤ q) (h2 : q < p + N) : q = p := by
  by_contra hne
  have hlt : p < q := by omega
  have := add_le_of_mod_eq N p q hN hmod.symm hlt
  omega

theorem exists_mod_window (N : Nat) (hN : 0 < N) (v k : Nat) (hv : v < N) :
    ∃ m, k ≤ m ∧ m < k + N ∧ m % N = v := by
  refine ⟨k + ((v + N - k % N) % N), by omega, ?_, ?_⟩
  · have := Nat.mod_lt (v + N - k % N) hN
    omega
  · have hkN : k % N < N := Nat.mod_lt k hN
    rw [← Nat.mod_add_mod, Nat.add_mod_mod,
      show k % N + (v + N - k % N) = v + N from by omega,
      Nat.add_mod_right]
    exact Nat.mod_eq_of_lt hv

theorem passTok_spec (tok : Fin N → Bool) (i : Fin N) (r : Nat)
    (hspec : ∀ j, tok j = true ↔ j.val = r % N) (hi : i.val = r % N) :
    ∀ j, passTok tok i j = true ↔ j.val = (r + 1) % N := by
  intro j
  have hnext : (nextIdx i).val = (r + 1) % N := by
    show (i.val + 1) % N = (r + 1) % N
    rw [hi, Nat.mod_add_mod]
  unfold passTok
  by_cases h1 : j = nextIdx i
  · subst h1
    simp [hnext]
  · rw [if_neg h1]
    by_cases h2 : j = i
    · subst h2
      rw [if_pos rfl]
      constructor
      · intro hfalse
        exact absurd hfalse (by simp)
      · intro hval
        exact absurd (Fin.ext (hval.trans hnext.symm)) h1
    · rw [if_neg h2]
      constructor
      · intro ht
        exact absurd (Fin.ext (((hspec j).mp ht).trans hi.symm)) h2
      · intro hval
        exact absurd (Fin.ext (hval.trans hnext.symm)) h1

theorem isStopPC_iff (pc : OPC τ) : isStopPC pc = true ↔ ∃ c, pc = OPC.stopAgg c := by
  cases pc <;> simp [isStopPC]

theorem handB_true_iff (s : OState τ N) :
    handB s = true ↔ ∃ j c, s.wpc j = OPC.stopAgg c := by
  simp only [handB, decide_eq_true_eq]
  constructor
  · rintro ⟨j, hj⟩
    obtain ⟨c, hc⟩ := (isStopPC_iff _).mp hj
    exact ⟨j, c, hc⟩
  · rintro ⟨j, c, hc⟩
    exact ⟨j, (isStopPC_iff _).mpr ⟨c, hc⟩⟩

theorem handB_false_iff (s : OState τ N) :
    handB s = false ↔ ∀ j c, s.wpc j ≠ OPC.stopAgg c := by
  rw [← Bool.not_eq_true, handB_true_iff]
  push_neg
  rfl

theorem handB_congr (s s' : OState τ N)
    (h : ∀ j, isStopPC (s'.wpc j) = isStopPC (s.wpc j)) : handB s' = handB s := by
  simp only [handB]
  exact decide_eq_decide.mpr (exists_congr fun j => by rw [h j])

theorem owinv_read_other (N : Nat) (xs : List τ) (f : τ → τ) (r p : Nat) (j : Fin N)
    (pc : OPC τ) (hpc : OWInv N xs f r p j pc) (hne : r % N ≠ j.val)
    (hstop : ∀ c, pc ≠ OPC.stopAgg c) : OWInv N xs f (r + 1) p j pc := by
  cases pc with
  | waitIn =>
      intro q hq hqm
      rcases Nat.lt_succ_iff_lt_or_eq.mp hq with h | rfl
      · exact hpc q h hqm
      · exact absurd hqm hne
  | work t =>
      obtain ⟨q, h1, h2, h3, h4, h5, h6⟩ := hpc
      refine ⟨q, h1, h2, by omega, h4, ?_, h6⟩
      intro q' hq' hq'm
      rcases Nat.lt_succ_iff_lt_or_eq.mp hq' with h | rfl
      · exact h5 q' h hq'm
      · exact absurd hq'm hne
  | waitOut rv =>
      obtain ⟨q, h1, h2, h3, h4, h5, h6⟩ := hpc
      refine ⟨q, h1, h2, by omega, h4, ?_, h6⟩
      intro q' hq' hq'm
      rcases Nat.lt_succ_iff_lt_or_eq.mp hq' with h | rfl
      · exact h5 q' h hq'm
      · exact absurd hq'm hne
  | stopAgg c => exact absurd rfl (hstop c)
  | done =>
      obtain ⟨⟨m, hm1, hm2, hm3⟩, h2⟩ := hpc
      refine ⟨⟨m, hm1, by omega, hm3⟩, ?_⟩
      intro q hq hqm hqk
      rcases Nat.lt_succ_iff_lt_or_eq.mp hq with h | rfl
      · exact h2 q h hqm hqk
      · exact absurd hqm hne

theorem owinv_pub_other (N : Nat) (xs : List τ) (f : τ → τ) (r p : Nat) (j : Fin N)
    (pc : OPC τ) (hpc : OWInv N xs f r p j pc) (hne : p % N ≠ j.val) :
    OWInv N xs f r (p + 1) j pc := by
  cases pc with
  | waitIn =>
      intro q hq hqm
      exact Nat.lt_succ_of_lt (hpc q hq hqm)
  | work t =>
      obtain ⟨q, h1, h2, h3, h4, h5, h6⟩ := hpc
      have hqp : q ≠ p := by
        intro hqp
        rw [hqp] at h1
        exact hne h1
      refine ⟨q, h1, by omega, h3, h4, h5, ?_⟩
      intro q' hq' hq'm
      exact Nat.lt_succ_of_lt (h6 q' hq' hq'm)
  | waitOut rv =>
      obtain ⟨q, h1, h2, h3, h4, h5, h6⟩ := hpc
      have hqp : q ≠ p := by
        intro hqp
        rw [hqp] at h1
        exact hne h1
      refine ⟨q, h1, by omega, h3, h4, h5, ?_⟩
      intro q' hq' hq'm
      exact Nat.lt_succ_of_lt (h6 q' hq' hq'm)
  | stopAgg c =>
      obtain ⟨h1, h2, h3, h4⟩ := hpc
      exact ⟨h1, h2, h3, fun q' hq' hq'm => Nat.lt_succ_of_lt (h4 q' hq' hq'm)⟩
  | done =>
      obtain ⟨h1, h2⟩ := hpc
      exact ⟨h1, fun q hq hqm hqk => Nat.lt_succ_of_lt (h2 q hq hqm hqk)⟩

theorem oInv_init (N M : Nat) (xs : List τ) (f : τ → τ) (hN : 0 < N) :
    OInv N xs f (oInit N M xs false) := by
  have hhand : handB (oInit N M xs false : OState τ N) = false := by
    refine (handB_false_iff _).mpr ?_
    intro j c h
    exact absurd h (by simp [oInit, oInit0])
  refine ⟨rfl, Nat.zero_le _, Nat.le_refl _, Nat.zero_le _,
    by show min 0 xs.length ≤ 0 + N; omega, ?_, ?_, ?_, ?_, ?_⟩
  · intro j
    show decide (j.val = 0) = true ↔ j.val = 0 % N
    rw [Nat.zero_mod]
    simp
  · intro j
    show decide (j.val = 0) = true ↔ j.val = 0 % N
    rw [Nat.zero_mod]
    simp
  · intro i
    show OWInv N xs f 0 0 i OPC.waitIn
    intro q hq _
    omega
  · rw [hhand]
    show xs.map (fun x => ⟨some x, 0⟩) ++ [⟨none, 0⟩] = inSpec N xs 0 false
    simp [inSpec]
  · intro o ho
    have : o = [] := List.eq_of_mem_replicate ho
    subst this
    have hem : emittedB N xs (oInit N M xs false : OState τ N) = false := by
      simp only [emittedB, hhand]
      have : ((oInit N M xs false : OState τ N)).reads = 0 := rfl
      rw [this]
      have : ¬ (0 = xs.length + N) := by omega
      simp [this]
    rw [hem]
    show ([] : List (Env τ)) = outSpecO xs f 0 false
    simp [outSpecO]

theorem oInv_no_stop_of_reads_le (N : Nat) (xs : List τ) (f : τ → τ) (s : OState τ N)
    (hinv : OInv N xs f s) (hr : s.reads ≤ xs.length) : handB s = false := by
  refine (handB_false_iff s).mpr ?_
  intro j c hj
  have hwv := hinv.wv j
  rw [hj] at hwv
  obtain ⟨h1, _, _, _⟩ := hwv
  omega

theorem oInv_readTask_facts (N : Nat) (xs : List τ) (f : τ → τ) (s : OState τ N)
    (t : τ) (c : Nat) (rest : List (Env τ))
    (hinv : OInv N xs f s) (p3 : s.inT = ⟨some t, c⟩ :: rest) :
    s.reads < xs.length ∧ xs[s.reads]? = some t ∧ c = 0 ∧
    rest = (xs.drop (s.reads + 1)).map (fun x => ⟨some x, 0⟩) ++ [⟨none, 0⟩] ∧
    handB s = false := by
  have htin := hinv.tin
  rw [p3] at htin
  by_cases h1 : s.reads ≤ xs.length
  · rw [inSpec, if_pos h1] at htin
    cases hd : xs.drop s.reads with
    | nil =>
        rw [hd] at htin
        simp at htin
    | cons y ys =>
        rw [hd] at htin
        simp only [List.map_cons, List.cons_append, List.cons.injEq, Env.mk.injEq,
          Option.some.injEq] at htin
        obtain ⟨⟨hty, hc⟩, hrest⟩ := htin
        have hlt : s.reads < xs.length := by
          by_contra hk
          have : xs.drop s.reads = [] := List.drop_eq_nil_of_le (by omega)
          rw [this] at hd
          exact absurd hd (by simp)
        have hys : xs.drop (s.reads + 1) = ys := by
          rw [← List.tail_drop, hd]
          rfl
        have hget : xs[s.reads]? = some t := by
          have h0 : (xs.drop s.reads)[0]? = xs[s.reads]? := by
            rw [List.getElem?_drop]
            simp
          rw [hd] at h0
          simp at h0
          rw [← h0, hty]
        exact ⟨hlt, hget, hc, by rw [hys]; exact hrest,
          oInv_no_stop_of_reads_le N xs f s hinv h1⟩
  · rw [inSpec, if_neg h1] at htin
    by_cases h2 : handB s = true
    · rw [if_pos h2] at htin
      exact absurd htin (by simp)
    · rw [if_neg h2] at htin
      by_cases h3 : s.reads < xs.length + N
      · rw [if_pos h3] at htin
        simp at htin
      · rw [if_neg h3] at htin
        exact absurd htin (by simp)

theorem oInv_readStop_facts (N : Nat) (xs : List τ) (f : τ → τ) (s : OState τ N)
    (c : Nat) (rest : List (Env τ)) (hN : 0 < N)
    (hinv : OInv N xs f s) (p3 : s.inT = ⟨none, c⟩ :: rest) :
    xs.length ≤ s.reads ∧ c = s.reads - xs.length ∧ rest = [] ∧
    s.reads < xs.length + N ∧ handB s = false := by
  have htin := hinv.tin
  rw [p3] at htin
  by_cases h1 : s.reads ≤ xs.length
  · rw [inSpec, if_pos h1] at htin
    cases hd : xs.drop s.reads with
    | nil =>
        rw [hd] at htin
        simp only [List.map_nil, List.nil_append, List.cons.injEq, Env.mk.injEq] at htin
        obtain ⟨⟨_, hc⟩, hrest⟩ := htin
        have heq : s.reads = xs.length := by
          have := (List.drop_eq_nil_iff).mp hd
          omega
        refine ⟨by omega, by omega, hrest, by omega,
          oInv_no_stop_of_reads_le N xs f s hinv h1⟩
    | cons y ys =>
        rw [hd] at htin
        simp at htin
  · rw [inSpec, if_neg h1] at htin
    by_cases h2 : handB s = true
    · rw [if_pos h2] at htin
      exact absurd htin (by simp)
    · rw [if_neg h2] at htin
      by_cases h3 : s.reads < xs.length + N
      · rw [if_pos h3] at htin
        simp only [List.cons.injEq, Env.mk.injEq] at htin
        obtain ⟨⟨_, hc⟩, hrest⟩ := htin
        exact ⟨by omega, hc, hrest, h3, by simp [h2]⟩
      · rw [if_neg h3] at htin
        exact absurd htin (by simp)

theorem emittedB_false_of_ne (N : Nat) (xs : List τ) (s : OState τ N)
    (h : s.reads ≠ xs.length + N) : emittedB N xs s = false := by
  simp [emittedB, h]

theorem emittedB_false_of_hand (N : Nat) (xs : List τ) (s : OState τ N)
    (h : handB s = true) : emittedB N xs s = false := by
  simp [emittedB, h]

theorem oInv_step_readTask (N : Nat) (xs : List τ) (f : τ → τ) (s : OState τ N)
    (i : Fin N) (t : τ) (c : Nat) (rest : List (Env τ)) (hN : 0 < N)
    (hinv : OInv N xs f s)
    (p1 : s.wpc i = .waitIn) (p2 : s.inTok i = true) (p3 : s.inT = ⟨some t, c⟩ :: rest) :
    OInv N xs f { s with inT := rest, inTok := passTok s.inTok i,
                         wpc := Function.update s.wpc i (.work t),
                         reads := s.reads + 1 } := by
  obtain ⟨hlt, hget, hc, hrest, hhand⟩ := oInv_readTask_facts N xs f s t c rest hinv p3
  have hival : i.val = s.reads % N := (hinv.itk i).mp p2
  have hwvi : ∀ q, q < s.reads → q % N = i.val → q < s.pubs := by
    have h := hinv.wv i
    rw [p1] at h
    exact h
  have hple := hinv.ple
  have hplk := hinv.plk
  have hnostop : ∀ j c', s.wpc j ≠ OPC.stopAgg c' := (handB_false_iff s).mp hhand
  have hhand' : handB { s with inT := rest, inTok := passTok s.inTok i, wpc := Function.update s.wpc i (.work t), reads := s.reads + 1 } = false := by
    refine (handB_false_iff _).mpr ?_
    intro j c' hj
    dsimp only at hj
    by_cases hji : j = i
    · subst hji
      rw [Function.update_same] at hj
      exact absurd hj (by simp)
    · rw [Function.update_noteq hji] at hj
      exact absurd hj (hnostop j c')
  refine ⟨hinv.brk, by dsimp only; omega, by dsimp only; omega, hplk, ?_, ?_, hinv.otk, ?_, ?_, ?_⟩
  · show min (s.reads + 1) xs.length ≤ s.pubs + N
    have hgap := hinv.gap
    have hmin : min s.reads xs.length = s.reads := Nat.min_eq_left (by omega)
    rw [hmin] at hgap
    have hne : s.reads ≠ s.pubs + N := by
      intro heq
      have hmod : s.pubs % N = i.val := by
        rw [hival, heq, Nat.add_mod_right]
      have := hwvi s.pubs (by omega) hmod
      omega
    calc min (s.reads + 1) xs.length ≤ s.reads + 1 := Nat.min_le_left _ _
      _ ≤ s.pubs + N := by omega
  · exact passTok_spec s.inTok i s.reads hinv.itk hival
  · intro j
    dsimp only
    by_cases hj : j = i
    · subst hj
      rw [Function.update_same]
      exact ⟨s.reads, hival.symm, hple, by omega, hget,
        fun q' h _ => by omega, fun q' h hm => hwvi q' h hm⟩
    · rw [Function.update_noteq hj]
      exact owinv_read_other N xs f s.reads s.pubs j (s.wpc j) (hinv.wv j)
        (fun h => hj (Fin.ext (h ▸ hival).symm))
        (fun c' => hnostop j c')
  · show rest = inSpec N xs (s.reads + 1) _
    rw [hhand']
    rw [inSpec, if_pos (by omega : s.reads + 1 ≤ xs.length)]
    exact hrest
  · intro o ho
    have h3 := hinv.tout o ho
    rw [emittedB_false_of_ne N xs s (by omega)] at h3
    have h4 : emittedB N xs { s with inT := rest, inTok := passTok s.inTok i, wpc := Function.update s.wpc i (.work t), reads := s.reads + 1 } = false :=
      emittedB_false_of_ne N xs _ (by show s.reads + 1 ≠ xs.length + N; omega)
    rw [h4]
    exact h3

theorem oInv_step_readStop (N : Nat) (xs : List τ) (f : τ → τ) (s : OState τ N)
    (i : Fin N) (c : Nat) (rest : List (Env τ)) (hN : 0 < N)
    (hinv : OInv N xs f s)
    (p1 : s.wpc i = .waitIn) (p2 : s.inTok i = true) (p3 : s.inT = ⟨none, c⟩ :: rest) :
    OInv N xs f { s with inT := rest, inTok := passTok s.inTok i, wpc := Function.update s.wpc i (.stopAgg c), reads := s.reads + 1 } := by
  obtain ⟨hkr, hc, hrest, hlt, hhand⟩ := oInv_readStop_facts N xs f s c rest hN hinv p3
  have hival : i.val = s.reads % N := (hinv.itk i).mp p2
  have hwvi : ∀ q, q < s.reads → q % N = i.val → q < s.pubs := by
    have h := hinv.wv i
    rw [p1] at h
    exact h
  have hnostop : ∀ j c', s.wpc j ≠ OPC.stopAgg c' := (handB_false_iff s).mp hhand
  have hhand' : handB { s with inT := rest, inTok := passTok s.inTok i, wpc := Function.update s.wpc i (.stopAgg c), reads := s.reads + 1 } = true := by
    refine (handB_true_iff _).mpr ⟨i, c, ?_⟩
    dsimp only
    rw [Function.update_same]
  refine ⟨hinv.brk, by dsimp only; omega, by dsimp only; have := hinv.ple; omega, hinv.plk, ?_, ?_, hinv.otk, ?_, ?_, ?_⟩
  · show min (s.reads + 1) xs.length ≤ s.pubs + N
    have hgap := hinv.gap
    rw [Nat.min_eq_right (by omega : xs.length ≤ s.reads)] at hgap
    rw [Nat.min_eq_right (by omega : xs.length ≤ s.reads + 1)]
    exact hgap
  · exact passTok_spec s.inTok i s.reads hinv.itk hival
  · intro j
    dsimp only
    by_cases hj : j = i
    · subst hj
      rw [Function.update_same]
      refine ⟨by omega, by omega, ?_, ?_⟩
      · show j.val = (s.reads + 1 - 1) % N
        rw [show s.reads + 1 - 1 = s.reads from by omega]
        exact hival
      · intro q' hq' hq'm
        exact hwvi q' (by omega) hq'm
    · rw [Function.update_noteq hj]
      exact owinv_read_other N xs f s.reads s.pubs j (s.wpc j) (hinv.wv j)
        (fun h => hj (Fin.ext (h ▸ hival).symm))
        (fun c' => hnostop j c')
  · show rest = inSpec N xs (s.reads + 1) _
    rw [hhand']
    rw [inSpec, if_neg (by omega : ¬ s.reads + 1 ≤ xs.length), if_pos rfl]
    exact hrest
  · intro o ho
    have h3 := hinv.tout o ho
    rw [emittedB_false_of_ne N xs s (by omega)] at h3
    rw [emittedB_false_of_hand N xs _ hhand']
    exact h3

theorem oInv_step_workStep (N : Nat) (xs : List τ) (f : τ → τ) (s : OState τ N)
    (i : Fin N) (t : τ)
    (hinv : OInv N xs f s) (p1 : s.wpc i = .work t) :
    OInv N xs f { s with wpc := Function.update s.wpc i (afterTask (fun x => some (f x)) t) } := by
  have hafter : afterTask (fun x => some (f x)) t = OPC.waitOut (f t) := rfl
  have hcongr : handB { s with wpc := Function.update s.wpc i (afterTask (fun x => some (f x)) t) } = handB s := by
    refine handB_congr _ _ ?_
    intro j
    dsimp only
    by_cases hj : j = i
    · subst hj
      rw [Function.update_same, p1, hafter]
      rfl
    · rw [Function.update_noteq hj]
  have hem : emittedB N xs { s with wpc := Function.update s.wpc i (afterTask (fun x => some (f x)) t) } = emittedB N xs s := by
    simp only [emittedB, hcongr]
  refine ⟨hinv.brk, hinv.rle, hinv.ple, hinv.plk, hinv.gap, hinv.itk, hinv.otk, ?_, ?_, ?_⟩
  · intro j
    dsimp only
    by_cases hj : j = i
    · subst hj
      rw [Function.update_same, hafter]
      have hwvi := hinv.wv j
      rw [p1] at hwvi
      obtain ⟨q, h1, h2, h3, h4, h5, h6⟩ := hwvi
      exact ⟨q, h1, h2, h3, ⟨t, h4, rfl⟩, h5, h6⟩
    · rw [Function.update_noteq hj]
      exact hinv.wv j
  · show s.inT = inSpec N xs s.reads _
    rw [hcongr]
    exact hinv.tin
  · intro o ho
    rw [hem]
    exact hinv.tout o ho

theorem oInv_step_pubStep (N : Nat) (xs : List τ) (f : τ → τ) (s : OState τ N)
    (i : Fin N) (rv : τ) (hN : 0 < N)
    (hinv : OInv N xs f s) (p1 : s.wpc i = .waitOut rv) (p2 : s.outTok i = true) :
    OInv N xs f { s with outTs := s.outTs.map (fun o => o ++ [⟨some rv, 0⟩]), outTok := passTok s.outTok i, wpc := Function.update s.wpc i .waitIn, pubs := s.pubs + 1 } := by
  have hpval : i.val = s.pubs % N := (hinv.otk i).mp p2
  have hwvi := hinv.wv i
  rw [p1] at hwvi
  obtain ⟨q, h1, h2, h3, ⟨x, hx, hrv⟩, h5, h6⟩ := hwvi
  have hqk : q < xs.length := by
    by_contra hk
    rw [List.getElem?_eq_none (by omega)] at hx
    exact absurd hx (by simp)
  have hqp : q = s.pubs :=
    eq_of_mod_eq_window N s.pubs q hN (by rw [h1, hpval]) h2
      (by have := hinv.gap; omega)
  have hrne : s.reads ≠ xs.length + N := by
    intro hre
    obtain ⟨m, hm1, hm2, hm3⟩ := exists_mod_window N hN i.val xs.length i.isLt
    have := h5 m (by omega) hm3
    omega
  have hcongr : handB { s with outTs := s.outTs.map (fun o => o ++ [⟨some rv, 0⟩]), outTok := passTok s.outTok i, wpc := Function.update s.wpc i .waitIn, pubs := s.pubs + 1 } = handB s := by
    refine handB_congr _ _ ?_
    intro j
    dsimp only
    by_cases hj : j = i
    · subst hj
      rw [Function.update_same, p1]
      rfl
    · rw [Function.update_noteq hj]
  refine ⟨hinv.brk, hinv.rle, by dsimp only; omega, by dsimp only; omega, ?_, hinv.itk, ?_, ?_, ?_, ?_⟩
  · show min s.reads xs.length ≤ s.pubs + 1 + N
    have := hinv.gap
    omega
  · exact passTok_spec s.outTok i s.pubs hinv.otk hpval
  · intro j
    dsimp only
    by_cases hj : j = i
    · subst hj
      rw [Function.update_same]
      intro q' hq' hq'm
      have := h5 q' hq' hq'm
      omega
    · rw [Function.update_noteq hj]
      exact owinv_pub_other N xs f s.reads s.pubs j (s.wpc j) (hinv.wv j)
        (fun h => hj (Fin.ext (h ▸ hpval).symm))
  · show s.inT = inSpec N xs s.reads _
    rw [hcongr]
    exact hinv.tin
  · intro o ho
    obtain ⟨o0, ho0, rfl⟩ := List.mem_map.mp ho
    have h3 := hinv.tout o0 ho0
    rw [emittedB_false_of_ne N xs s hrne] at h3
    rw [emittedB_false_of_ne N xs _ (by show s.reads ≠ xs.length + N; exact hrne)]
    rw [h3]
    show outSpecO xs f s.pubs false ++ [⟨some rv, 0⟩] = outSpecO xs f (s.pubs + 1) false
    simp only [outSpecO, if_neg (Bool.false_ne_true), List.append_nil]
    rw [List.take_succ]
    rw [← hqp, hx]
    simp [hrv]

theorem oInv_step_stopPass (N : Nat) (xs : List τ) (f : τ → τ) (s : OState τ N)
    (i : Fin N) (c : Nat) (hN : 0 < N)
    (hinv : OInv N xs f s) (p1 : s.wpc i = .stopAgg c) (p2 : c + 1 ≠ N) :
    OInv N xs f { s with inT := s.inT ++ [⟨none, c + 1⟩], wpc := Function.update s.wpc i .done } := by
  have hwvi := hinv.wv i
  rw [p1] at hwvi
  obtain ⟨hkr, hcr, hiv, hcl⟩ := hwvi
  have hrle := hinv.rle
  have hrlt : s.reads < xs.length + N := by omega
  have hhand : handB s = true := (handB_true_iff s).mpr ⟨i, c, p1⟩
  have hinT : s.inT = [] := by
    rw [hinv.tin, hhand, inSpec, if_neg (by omega : ¬ s.reads ≤ xs.length), if_pos rfl]
  have hhand' : handB { s with inT := s.inT ++ [⟨none, c + 1⟩], wpc := Function.update s.wpc i .done } = false := by
    refine (handB_false_iff _).mpr ?_
    intro j c' hj
    dsimp only at hj
    by_cases hji : j = i
    · subst hji
      rw [Function.update_same] at hj
      exact absurd hj (by simp)
    · rw [Function.update_noteq hji] at hj
      have hwvj := hinv.wv j
      rw [hj] at hwvj
      obtain ⟨_, _, hjv, _⟩ := hwvj
      exact hji (Fin.ext (hjv.trans hiv.symm))
  refine ⟨hinv.brk, hinv.rle, hinv.ple, hinv.plk, hinv.gap, hinv.itk, hinv.otk, ?_, ?_, ?_⟩
  · intro j
    dsimp only
    by_cases hj : j = i
    · subst hj
      rw [Function.update_same]
      refine ⟨⟨s.reads - 1, by omega, by omega, by rw [← hiv]⟩, ?_⟩
      intro q hq hqm hqk
      exact hcl q (by omega) hqm
    · rw [Function.update_noteq hj]
      exact hinv.wv j
  · show s.inT ++ [⟨none, c + 1⟩] = inSpec N xs s.reads _
    rw [hhand', hinT, inSpec, if_neg (by omega : ¬ s.reads ≤ xs.length),
      if_neg (Bool.false_ne_true), if_pos hrlt]
    rw [show s.reads - xs.length = c + 1 from by omega]
    rfl
  · intro o ho
    have h3 := hinv.tout o ho
    rw [emittedB_false_of_hand N xs s hhand] at h3
    rw [emittedB_false_of_ne N xs _ (by show s.reads ≠ xs.length + N; omega)]
    exact h3

theorem oInv_step_stopLast (N : Nat) (xs : List τ) (f : τ → τ) (s : OState τ N)
    (i : Fin N) (c : Nat) (hN : 0 < N)
    (hinv : OInv N xs f s) (p1 : s.wpc i = .stopAgg c) (p2 : c + 1 = N) :
    OInv N xs f { s with outTs := s.outTs.map (fun o => o ++ [⟨none, 0⟩]), wpc := Function.update s.wpc i .done } := by
  have hwvi := hinv.wv i
  rw [p1] at hwvi
  obtain ⟨hkr, hcr, hiv, hcl⟩ := hwvi
  have hrle := hinv.rle
  have hreq : s.reads = xs.length + N := by omega
  have hhand : handB s = true := (handB_true_iff s).mpr ⟨i, c, p1⟩
  have hinT : s.inT = [] := by
    rw [hinv.tin, hhand, inSpec, if_neg (by omega : ¬ s.reads ≤ xs.length), if_pos rfl]
  have hpk : s.pubs = xs.length := by
    by_contra hpne
    have hplt : s.pubs < xs.length := by have := hinv.plk; omega
    have hj0lt : s.pubs % N < N := Nat.mod_lt _ hN
    set j0 : Fin N := ⟨s.pubs % N, hj0lt⟩ with hj0def
    have hj0v : j0.val = s.pubs % N := rfl
    cases hpc : s.wpc j0 with
    | waitIn =>
        have hwv := hinv.wv j0
        rw [hpc] at hwv
        have := hwv s.pubs (by omega) hj0v.symm
        omega
    | work t' =>
        have hwv := hinv.wv j0
        rw [hpc] at hwv
        obtain ⟨q, hq1, hq2, hq3, hq4, hq5, hq6⟩ := hwv
        have hqk : q < xs.length := by
          by_contra hk
          rw [List.getElem?_eq_none (by omega)] at hq4
          exact absurd hq4 (by simp)
        obtain ⟨m, hm1, hm2, hm3⟩ := exists_mod_window N hN j0.val xs.length j0.isLt
        have := hq5 m (by omega) hm3
        omega
    | waitOut rv' =>
        have hwv := hinv.wv j0
        rw [hpc] at hwv
        obtain ⟨q, hq1, hq2, hq3, ⟨x, hx, _⟩, hq5, hq6⟩ := hwv
        have hqk : q < xs.length := by
          by_contra hk
          rw [List.getElem?_eq_none (by omega)] at hx
          exact absurd hx (by simp)
        obtain ⟨m, hm1, hm2, hm3⟩ := exists_mod_window N hN j0.val xs.length j0.isLt
        have := hq5 m (by omega) hm3
        omega
    | stopAgg c' =>
        have hwv := hinv.wv j0
        rw [hpc] at hwv
        obtain ⟨_, _, hj0iv, _⟩ := hwv
        have : j0 = i := Fin.ext (hj0iv.trans hiv.symm)
        rw [this] at hpc
        rw [p1] at hpc
        injection hpc with hcc
        have hiv2 : i.val = s.pubs % N := by rw [← this]
        have := hcl s.pubs (by omega) hiv2.symm
        omega
    | done =>
        have hwv := hinv.wv j0
        rw [hpc] at hwv
        have := hwv.2 s.pubs (by omega) hj0v.symm hplt
        omega
  have hhand' : handB { s with outTs := s.outTs.map (fun o => o ++ [⟨none, 0⟩]), wpc := Function.update s.wpc i .done } = false := by
    refine (handB_false_iff _).mpr ?_
    intro j c' hj
    dsimp only at hj
    by_cases hji : j = i
    · subst hji
      rw [Function.update_same] at hj
      exact absurd hj (by simp)
    · rw [Function.update_noteq hji] at hj
      have hwvj := hinv.wv j
      rw [hj] at hwvj
      obtain ⟨_, _, hjv, _⟩ := hwvj
      exact hji (Fin.ext (hjv.trans hiv.symm))
  have hem' : emittedB N xs { s with outTs := s.outTs.map (fun o => o ++ [⟨none, 0⟩]), wpc := Function.update s.wpc i .done } = true := by
    simp only [emittedB, hhand']
    have : ({ s with outTs := s.outTs.map (fun o => o ++ [⟨none, 0⟩]), wpc := Function.update s.wpc i .done } : OState τ N).reads = xs.length + N := hreq
    rw [this]
    simp
  refine ⟨hinv.brk, hinv.rle, hinv.ple, hinv.plk, hinv.gap, hinv.itk, hinv.otk, ?_, ?_, ?_⟩
  · intro j
    dsimp only
    by_cases hj : j = i
    · subst hj
      rw [Function.update_same]
      refine ⟨⟨s.reads - 1, by omega, by omega, by rw [← hiv]⟩, ?_⟩
      intro q hq hqm hqk
      exact hcl q (by omega) hqm
    · rw [Function.update_noteq hj]
      exact hinv.wv j
  · show s.inT = inSpec N xs s.reads _
    rw [hhand', hinT, inSpec, if_neg (by omega : ¬ s.reads ≤ xs.length),
      if_neg (Bool.false_ne_true), if_neg (by omega : ¬ s.reads < xs.length + N)]
  · intro o ho
    obtain ⟨o0, ho0, rfl⟩ := List.mem_map.mp ho
    have h3 := hinv.tout o0 ho0
    rw [emittedB_false_of_hand N xs s hhand] at h3
    rw [hem', h3]
    show outSpecO xs f s.pubs false ++ [⟨none, 0⟩] = outSpecO xs f s.pubs true
    simp [outSpecO]

theorem oInv_step (N : Nat) (xs : List τ) (f : τ → τ) (s s' : OState τ N)
    (i : Fin N) (hN : 0 < N) (hinv : OInv N xs f s)
    (h : OStep (fun x => some (f x)) N i s s') : OInv N xs f s' := by
  cases h with
  | readTask s i t c rest p1 p2 p3 => exact oInv_step_readTask N xs f s i t c rest hN hinv p1 p2 p3
  | readStop s i c rest p1 p2 p3 => exact oInv_step_readStop N xs f s i c rest hN hinv p1 p2 p3
  | readFail s i p1 p2 p3 p4 =>
      rw [hinv.brk] at p4
      exact absurd p4 (by simp)
  | workStep s i t p1 => exact oInv_step_workStep N xs f s i t hinv p1
  | pubStep s i rv p1 p2 => exact oInv_step_pubStep N xs f s i rv hN hinv p1 p2
  | stopPass s i c p1 p2 => exact oInv_step_stopPass N xs f s i c hN hinv p1 p2
  | stopLast s i c p1 p2 => exact oInv_step_stopLast N xs f s i c hN hinv p1 p2

theorem oInv_reach (N M : Nat) (xs : List τ) (f : τ → τ) (s : OState τ N) (hN : 0 < N)
    (h : OReach (fun x => some (f x)) N (oInit N M xs false) s) : OInv N xs f s := by
  induction h with
  | refl => exact oInv_init N M xs f hN
  | tail h1 h2 ih =>
      obtain ⟨i, hstep⟩ := h2
      exact oInv_step N xs f _ _ i hN ih hstep

/-- Progress for the healthy ordered stage with non-dropping transform: if
some worker has not exited, a transition is enabled. -/
theorem oProgress (N : Nat) (xs : List τ) (f : τ → τ) (s : OState τ N) (hN : 0 < N)
    (hinv : OInv N xs f s) (hnd : ¬ allDoneO s) :
    ∃ i s', OStep (fun x => some (f x)) N i s s' := by
  by_cases hwork : ∃ i t, s.wpc i = OPC.work t
  · obtain ⟨i, t, hp⟩ := hwork
    exact ⟨i, _, OStep.workStep s i t hp⟩
  by_cases hstop : ∃ i c, s.wpc i = OPC.stopAgg c
  · obtain ⟨i, c, hp⟩ := hstop
    by_cases hc : c + 1 = N
    · exact ⟨i, _, OStep.stopLast s i c hp hc⟩
    · exact ⟨i, _, OStep.stopPass s i c hp hc⟩
  push_neg at hwork hstop
  by_cases hout : ∃ i rv, s.wpc i = OPC.waitOut rv
  · obtain ⟨iw, rv, hiw⟩ := hout
    have hwv := hinv.wv iw
    rw [hiw] at hwv
    obtain ⟨q, hq1, hq2, hq3, ⟨x, hx, _⟩, _, _⟩ := hwv
    have hqk : q < xs.length := by
      by_contra hk
      rw [List.getElem?_eq_none (by omega)] at hx
      exact absurd hx (by simp)
    have hj0lt : s.pubs % N < N := Nat.mod_lt _ hN
    set jp : Fin N := ⟨s.pubs % N, hj0lt⟩ with hjpdef
    have hjpv : jp.val = s.pubs % N := rfl
    cases hpc : s.wpc jp with
    | waitIn =>
        have hwv2 := hinv.wv jp
        rw [hpc] at hwv2
        have := hwv2 s.pubs (by omega) hjpv.symm
        exact absurd this (by omega)
    | work t => exact absurd hpc (hwork jp t)
    | stopAgg c => exact absurd hpc (hstop jp c)
    | done =>
        have hwv2 := hinv.wv jp
        rw [hpc] at hwv2
        have := hwv2.2 s.pubs (by omega) hjpv.symm (by omega)
        exact absurd this (by omega)
    | waitOut rv' =>
        exact ⟨jp, _, OStep.pubStep s jp rv' hpc ((hinv.otk jp).mpr hjpv)⟩
  · push_neg at hout
    simp only [allDoneO, not_forall] at hnd
    obtain ⟨i0, hi0⟩ := hnd
    have hrlt : s.reads < xs.length + N := by
      by_contra h'
      have hre : s.reads = xs.length + N := by
        have := hinv.rle
        omega
      cases hpc : s.wpc i0 with
      | waitIn =>
          obtain ⟨m, hm1, hm2, hm3⟩ := exists_mod_window N hN i0.val xs.length i0.isLt
          have hwv := hinv.wv i0
          rw [hpc] at hwv
          have := hwv m (by omega) hm3
          have := hinv.plk
          omega
      | work t => exact hwork i0 t hpc
      | waitOut rv => exact hout i0 rv hpc
      | stopAgg c => exact hstop i0 c hpc
      | done => exact hi0 hpc
    have hjrlt : s.reads % N < N := Nat.mod_lt _ hN
    set jr : Fin N := ⟨s.reads % N, hjrlt⟩ with hjrdef
    have hjrv : jr.val = s.reads % N := rfl
    have hjrpc : s.wpc jr = OPC.waitIn := by
      cases hpc : s.wpc jr with
      | waitIn => rfl
      | work t => exact absurd hpc (hwork jr t)
      | waitOut rv => exact absurd hpc (hout jr rv)
      | stopAgg c => exact absurd hpc (hstop jr c)
      | done =>
          have hwv := hinv.wv jr
          rw [hpc] at hwv
          obtain ⟨⟨m, hm1, hm2, hm3⟩, _⟩ := hwv
          have : m + N ≤ s.reads :=
            add_le_of_mod_eq N m s.reads hN (by rw [hm3, hjrv]) hm2
          exact absurd this (by omega)
    have htok : s.inTok jr = true := (hinv.itk jr).mpr hjrv
    have hne : s.inT ≠ [] := by
      rw [hinv.tin]
      have hhand : handB s = false :=
        (handB_false_iff s).mpr (fun j c hj => absurd hj (hstop j c))
      rw [hhand, inSpec]
      by_cases h1 : s.reads ≤ xs.length
      · rw [if_pos h1]
        simp
      · rw [if_neg h1, if_neg (Bool.false_ne_true), if_pos hrlt]
        simp
    cases hT : s.inT with
    | nil => exact absurd hT hne
    | cons e rest =>
        cases e with
        | mk pl c =>
            cases pl with
            | some t => exact ⟨jr, _, OStep.readTask s jr t c rest hjrpc htok hT⟩
            | none => exact ⟨jr, _, OStep.readStop s jr c rest hjrpc htok hT⟩

theorem oInv_allDone_out (N : Nat) (xs : List τ) (f : τ → τ) (s : OState τ N)
    (hN : 0 < N) (hinv : OInv N xs f s) (hdone : allDoneO s) :
    ∀ o ∈ s.outTs, o = xs.map (fun x => ⟨some (f x), 0⟩) ++ [⟨none, 0⟩] := by
  have hch : ∀ j : Fin N, ∃ m, xs.length ≤ m ∧ m < s.reads ∧ m % N = j.val := by
    intro j
    have hwv := hinv.wv j
    rw [hdone j] at hwv
    exact hwv.1
  choose mf hm using hch
  have hcard : Fintype.card (Fin N) ≤ (Finset.Ico xs.length s.reads).card := by
    rw [← Finset.card_univ]
    apply Finset.card_le_card_of_injOn mf
    · intro j _
      exact Finset.mem_Ico.mpr ⟨(hm j).1, (hm j).2.1⟩
    · intro a _ b _ hab
      apply Fin.ext
      rw [← (hm a).2.2, ← (hm b).2.2, hab]
  rw [Fintype.card_fin, Nat.card_Ico] at hcard
  have hre : s.reads = xs.length + N := by
    have := hinv.rle
    omega
  have hpk : s.pubs = xs.length := by
    by_contra hpne
    have hplt : s.pubs < xs.length := by
      have := hinv.plk
      omega
    have hj0lt : s.pubs % N < N := Nat.mod_lt _ hN
    set j0 : Fin N := ⟨s.pubs % N, hj0lt⟩ with hj0def
    have hwv := hinv.wv j0
    rw [hdone j0] at hwv
    have := hwv.2 s.pubs (by omega) rfl hplt
    omega
  have hhand : handB s = false := by
    refine (handB_false_iff s).mpr ?_
    intro j c hj
    rw [hdone j] at hj
    exact absurd hj (by simp)
  have hem : emittedB N xs s = true := by
    simp [emittedB, hhand, hre]
  intro o ho
  have h3 := hinv.tout o ho
  rw [hem, hpk] at h3
  rw [h3]
  simp [outSpecO]

/-- C1: for every ordered stage with user transform `f` (that is, `doTask`
returns `some (f x)` for every task) and every pool size `N ≥ 1` and fan-out
`M`, in every execution that starts from the stage fed `x1…xk` followed by
NONE and in which all workers have exited, every output tube holds exactly
`f(x1)…f(xk)` followed by one NONE, in that order. -/
theorem c1_ordered_stage_preserves_order (τ : Type) (N M : Nat) (xs : List τ)
    (f : τ → τ) (s : OState τ N) (hN : 0 < N)
    (hreach : OReach (fun x => some (f x)) N (oInit N M xs false) s)
    (hdone : allDoneO s) :
    ∀ o ∈ s.outTs, o = xs.map (fun x => ⟨some (f x), 0⟩) ++ [⟨none, 0⟩] :=
  oInv_allDone_out N xs f s hN (oInv_reach N M xs f s hN hreach) hdone

def c1wS0 : OState Nat 1 := oInit 1 1 [1] false

def c1wS1 : OState Nat 1 :=
  { c1wS0 with inT := [⟨none, 0⟩], inTok := passTok c1wS0.inTok 0, wpc := Function.update c1wS0.wpc 0 (OPC.work 1), reads := c1wS0.reads + 1 }

def c1wS2 : OState Nat 1 :=
  { c1wS1 with wpc := Function.update c1wS1.wpc 0 (afterTask (fun n : Nat => some (n + 1)) 1) }

def c1wS3 : OState Nat 1 :=
  { c1wS2 with outTs := c1wS2.outTs.map (fun o => o ++ [⟨some 2, 0⟩]), outTok := passTok c1wS2.outTok 0, wpc := Function.update c1wS2.wpc 0 OPC.waitIn, pubs := c1wS2.pubs + 1 }

def c1wS4 : OState Nat 1 :=
  { c1wS3 with inT := [], inTok := passTok c1wS3.inTok 0, wpc := Function.update c1wS3.wpc 0 (OPC.stopAgg 0), reads := c1wS3.reads + 1 }

def c1wS5 : OState Nat 1 :=
  { c1wS4 with outTs := c1wS4.outTs.map (fun o => o ++ [⟨none, 0⟩]), wpc := Function.update c1wS4.wpc 0 OPC.done }

theorem c1w_reach :
    OReach (fun n : Nat => some (n + 1)) 1 (oInit 1 1 [1] false) c1wS5 := by
  have h1 : OStepAny (fun n : Nat => some (n + 1)) 1 c1wS0 c1wS1 :=
    ⟨0, OStep.readTask c1wS0 0 1 0 [⟨none, 0⟩] (by decide) (by decide) rfl⟩
  have h2 : OStepAny (fun n : Nat => some (n + 1)) 1 c1wS1 c1wS2 :=
    ⟨0, OStep.workStep c1wS1 0 1 (by decide)⟩
  have h3 : OStepAny (fun n : Nat => some (n + 1)) 1 c1wS2 c1wS3 :=
    ⟨0, OStep.pubStep c1wS2 0 2 (by decide) (by decide)⟩
  have h4 : OStepAny (fun n : Nat => some (n + 1)) 1 c1wS3 c1wS4 :=
    ⟨0, OStep.readStop c1wS3 0 0 [] (by decide) (by decide) rfl⟩
  have h5 : OStepAny (fun n : Nat => some (n + 1)) 1 c1wS4 c1wS5 :=
    ⟨0, OStep.stopLast c1wS4 0 0 (by decide) rfl⟩
  exact Relation.ReflTransGen.tail (Relation.ReflTransGen.tail (Relation.ReflTransGen.tail
    (Relation.ReflTransGen.tail (Relation.ReflTransGen.tail Relation.ReflTransGen.refl h1)
      h2) h3) h4) h5

theorem c1_witness :
    (0 < 1 ∧ allDoneO c1wS5) ∧
    (∀ o ∈ c1wS5.outTs,
      o = [1].map (fun x => (⟨some (x + 1), 0⟩ : Env Nat)) ++ [⟨none, 0⟩]) := by
  have hdone : allDoneO c1wS5 := by
    intro i
    fin_cases i
    decide
  exact ⟨⟨Nat.one_pos, hdone⟩,
    c1_ordered_stage_preserves_order Nat 1 1 [1] (fun n => n + 1) c1wS5 Nat.one_pos
      c1w_reach hdone⟩

theorem getLastQ_map (g : α → β) : ∀ l : List α, (l.map g).getLast? = (l.getLast?).map g := by
  intro l
  induction l with
  | nil => rfl
  | cons a l ih =>
      cases l with
      | nil => rfl
      | cons b l2 =>
          rw [List.map_cons] at ih
          rw [List.map_cons, List.map_cons, List.getLast?_cons_cons, ih, List.getLast?_cons_cons]

theorem mem_of_getLastQ (l : List α) (a : α) (h : l.getLast? = some a) : a ∈ l := by
  induction l with
  | nil => simp at h
  | cons x l ih =>
      cases l with
      | nil =>
          simp only [List.getLast?_singleton, Option.some.injEq] at h
          simp [h]
      | cons y l2 =>
          rw [List.getLast?_cons_cons] at h
          exact List.mem_cons_of_mem x (ih h)

theorem oInv_reads_lt_of_inT_ne (N : Nat) (xs : List τ) (f : τ → τ) (s : OState τ N)
    (hN : 0 < N) (hinv : OInv N xs f s) (hne : s.inT ≠ []) :
    s.reads < xs.length + N := by
  by_contra h'
  have hre : s.reads = xs.length + N := by
    have := hinv.rle
    omega
  apply hne
  rw [hinv.tin, inSpec, if_neg (by omega : ¬ s.reads ≤ xs.length)]
  by_cases hh : handB s = true
  · rw [if_pos hh]
  · rw [if_neg hh, if_neg (by omega : ¬ s.reads < xs.length + N)]

theorem resultsFuel_total (τ : Type) :
    ∀ (m : Nat) (rss : List (List τ)), rss ≠ [] → (∀ rs ∈ rss, rs.length = m) →
    ∃ out, resultsFuel τ (m + 1)
      (rss.map (fun rs => [rs.map (fun v => (⟨some v, 0⟩ : Env τ)) ++ [⟨none, 0⟩]]))
      = some out := by
  intro m
  induction m with
  | zero =>
      intro rss hne hlen
      cases hL : rss.getLast? with
      | none => exact absurd (List.getLast?_eq_none_iff.mp hL) hne
      | some rlast =>
          have hrl : rlast ∈ rss := mem_of_getLastQ rss rlast hL
          have hrlnil : rlast = [] := List.eq_nil_of_length_eq_zero (hlen rlast hrl)
          subst hrlnil
          have hpipe := pipeGetBGo_last
            (rss.map (fun rs => [rs.map (fun v => (⟨some v, 0⟩ : Env τ)) ++ [⟨none, 0⟩]]))
            none [[(⟨none, 0⟩ : Env τ)]] ⟨none, 0⟩ []
            (by rw [getLastQ_map, hL]; rfl) (by rfl)
            (by
              intro l hl t ht
              obtain ⟨rs, _, rfl⟩ := List.mem_map.mp hl
              rw [List.mem_singleton] at ht
              subst ht
              simp)
          refine ⟨[], ?_⟩
          simp only [resultsFuel, pipeGetB]
          rw [hpipe]
  | succ m ih =>
      intro rss hne hlen
      cases hL : rss.getLast? with
      | none => exact absurd (List.getLast?_eq_none_iff.mp hL) hne
      | some rlast =>
          have hrl : rlast ∈ rss := mem_of_getLastQ rss rlast hL
          have hrllen := hlen rlast hrl
          cases rlast with
          | nil => simp at hrllen
          | cons v vs =>
              have hpipe := pipeGetBGo_last
                (rss.map (fun rs => [rs.map (fun v => (⟨some v, 0⟩ : Env τ)) ++ [⟨none, 0⟩]]))
                none [(v :: vs).map (fun v => (⟨some v, 0⟩ : Env τ)) ++ [⟨none, 0⟩]]
                ⟨some v, 0⟩ (vs.map (fun v => (⟨some v, 0⟩ : Env τ)) ++ [⟨none, 0⟩])
                (by rw [getLastQ_map, hL]; rfl) (by rfl)
                (by
                  intro l hl t ht
                  obtain ⟨rs, _, rfl⟩ := List.mem_map.mp hl
                  rw [List.mem_singleton] at ht
                  subst ht
                  simp)
              have htails :
                  (rss.map (fun rs => [rs.map (fun v => (⟨some v, 0⟩ : Env τ)) ++ [⟨none, 0⟩]])).map
                      (fun l => l.map List.tail)
                    = (rss.map List.tail).map
                        (fun rs => [rs.map (fun v => (⟨some v, 0⟩ : Env τ)) ++ [⟨none, 0⟩]]) := by
                rw [List.map_map, List.map_map]
                apply List.map_congr_left
                intro rs hrs
                have hlr : rs.length = m + 1 := hlen rs hrs
                cases rs with
                | nil => simp at hlr
                | cons w ws => simp [Function.comp]
              obtain ⟨out, hout⟩ := ih (rss.map List.tail)
                (by
                  intro hc
                  rw [List.map_eq_nil_iff] at hc
                  exact hne hc)
                (by
                  intro rs hrs
                  obtain ⟨rs0, hrs0, rfl⟩ := List.mem_map.mp hrs
                  have := hlen rs0 hrs0
                  simp [List.length_tail, this])
              refine ⟨v :: out, ?_⟩
              have hpipe2 : pipeGetB (rss.map (fun rs =>
                  [rs.map (fun v => (⟨some v, 0⟩ : Env τ)) ++ [⟨none, 0⟩]]))
                  = some ((⟨some v, 0⟩ : Env τ).payload,
                    (rss.map (fun rs =>
                      [rs.map (fun v => (⟨some v, 0⟩ : Env τ)) ++ [⟨none, 0⟩]])).map
                        (fun l => l.map List.tail)) := hpipe
              conv_lhs => rw [resultsFuel]
              rw [hpipe2]
              dsimp only
              rw [htails, hout]
              rfl

/-- A user transform that always returns: `None` for task `1` (dropping it
without publishing), a result for task `2`. -/
def c3dt : Nat → Option Nat := fun t => if t = 2 then some 5 else none

def c3d0 : OState Nat 2 := oInit 2 1 [1, 2] false

def c3d1 : OState Nat 2 :=
  { c3d0 with inT := [⟨some 2, 0⟩, ⟨none, 0⟩], inTok := passTok c3d0.inTok 0, wpc := Function.update c3d0.wpc 0 (OPC.work 1), reads := c3d0.reads + 1 }

def c3d2 : OState Nat 2 :=
  { c3d1 with inT := [⟨none, 0⟩], inTok := passTok c3d1.inTok 1, wpc := Function.update c3d1.wpc 1 (OPC.work 2), reads := c3d1.reads + 1 }

def c3d3 : OState Nat 2 :=
  { c3d2 with wpc := Function.update c3d2.wpc 0 (afterTask c3dt 1) }

def c3d4 : OState Nat 2 :=
  { c3d3 with inT := [], inTok := passTok c3d3.inTok 0, wpc := Function.update c3d3.wpc 0 (OPC.stopAgg 0), reads := c3d3.reads + 1 }

def c3d5 : OState Nat 2 :=
  { c3d4 with inT := c3d4.inT ++ [⟨none, 1⟩], wpc := Function.update c3d4.wpc 0 OPC.done }

def c3d6 : OState Nat 2 :=
  { c3d5 with wpc := Function.update c3d5.wpc 1 (afterTask c3dt 2) }

theorem c3_cex_reach : OReach c3dt 2 (oInit 2 1 [1, 2] false) c3d6 := by
  have h1 : OStepAny c3dt 2 c3d0 c3d1 :=
    ⟨0, OStep.readTask c3d0 0 1 0 [⟨some 2, 0⟩, ⟨none, 0⟩] (by decide) (by decide) rfl⟩
  have h2 : OStepAny c3dt 2 c3d1 c3d2 :=
    ⟨1, OStep.readTask c3d1 1 2 0 [⟨none, 0⟩] (by decide) (by decide) rfl⟩
  have h3 : OStepAny c3dt 2 c3d2 c3d3 :=
    ⟨0, OStep.workStep c3d2 0 1 (by decide)⟩
  have h4 : OStepAny c3dt 2 c3d3 c3d4 :=
    ⟨0, OStep.readStop c3d3 0 0 [] (by decide) (by decide) rfl⟩
  have h5 : OStepAny c3dt 2 c3d4 c3d5 :=
    ⟨0, OStep.stopPass c3d4 0 0 (by decide) (by decide)⟩
  have h6 : OStepAny c3dt 2 c3d5 c3d6 :=
    ⟨1, OStep.workStep c3d5 1 2 (by decide)⟩
  exact Relation.ReflTransGen.tail (Relation.ReflTransGen.tail (Relation.ReflTransGen.tail
    (Relation.ReflTransGen.tail (Relation.ReflTransGen.tail (Relation.ReflTransGen.tail
      Relation.ReflTransGen.refl h1) h2) h3) h4) h5) h6

/-- C3 counterexample: a two-worker ordered stage with a user transform that
always returns (but returns `None` for the first task without publishing) is
fed `1, 2, NONE`.  The execution reaches a state in which worker 1 waits
forever on its previous-output lock — worker 0 exited without ever calling
`putResult`, so the lock is never released: no transition is enabled, yet
worker 1 has not exited.  The claim's conclusion (every worker exits in
finite time) fails. -/
theorem c3_counterexample_worker_never_exits :
    OReach c3dt 2 (oInit 2 1 [1, 2] false) c3d6 ∧
    ¬ allDoneO c3d6 ∧ stuckO c3dt 2 c3d6 := by
  refine ⟨c3_cex_reach, ?_, ?_⟩
  · intro hall
    have := hall 1
    revert this
    decide
  · have hw : ∀ j : Fin 2, c3d6.wpc j = OPC.done ∨ c3d6.wpc j = OPC.waitOut 5 := by decide
    have hot : ∀ j : Fin 2, c3d6.outTok j = true → j = 0 := by decide
    have hw1 : c3d6.wpc 0 = OPC.done := by decide
    intro i s' h
    cases h with
    | readTask s i t c rest p1 p2 p3 =>
        rcases hw i with hd | hd <;> rw [hd] at p1 <;> exact absurd p1 (by simp)
    | readStop s i c rest p1 p2 p3 =>
        rcases hw i with hd | hd <;> rw [hd] at p1 <;> exact absurd p1 (by simp)
    | readFail s i p1 p2 p3 p4 =>
        rcases hw i with hd | hd <;> rw [hd] at p1 <;> exact absurd p1 (by simp)
    | workStep s i t p1 =>
        rcases hw i with hd | hd <;> rw [hd] at p1 <;> exact absurd p1 (by simp)
    | pubStep s i r p1 p2 =>
        rcases hw i with hd | hd
        · rw [hd] at p1
          exact absurd p1 (by simp)
        · have hi0 : i = 0 := hot i p2
          rw [hi0, hw1] at p1
          exact absurd p1 (by simp)
    | stopPass s i c p1 p2 =>
        rcases hw i with hd | hd <;> rw [hd] at p1 <;> exact absurd p1 (by simp)
    | stopLast s i c p1 p2 =>
        rcases hw i with hd | hd <;> rw [hd] at p1 <;> exact absurd p1 (by simp)

/-- C3 (amended): for pipelines whose user transforms always return a
non-NONE result (one publication per task, as the publication convention of
the design requires — a transform returning `None` without publishing can
deadlock an ordered ring, see the counterexample), a single NONE fed after
the tasks drains every stage: in both stage kinds, from every reachable
state some transition is enabled until all workers have exited, and every
transition strictly decreases a natural-number measure, so every maximal
execution ends with all workers exited in finitely many steps; and the
consumer-side `results()` generator terminates on the leaf streams
(`m` results then NONE on each leaf). -/
theorem c3_termination_amended :
    (∀ (τ : Type) (N M : Nat) (xs : List τ) (f : τ → τ) (s : OState τ N), 0 < N →
      OReach (fun x => some (f x)) N (oInit N M xs false) s →
        ((¬ allDoneO s → ∃ i s', OStep (fun x => some (f x)) N i s s') ∧
         (∀ i s', OStep (fun x => some (f x)) N i s s' →
            muO xs.length s' < muO xs.length s))) ∧
    (∀ (τ : Type) (dt : τ → Option τ) (N M : Nat) (xs : List τ) (s : UState τ N), 0 < N →
      UReach dt N (uInit0 N M (xs.map (fun x => ⟨some x, 0⟩) ++ [⟨none, 0⟩]) false) s →
        ((¬ allDoneU s → ∃ i s', UStep dt N i s s') ∧
         (∀ i s', UStep dt N i s s' → muU s' < muU s))) ∧
    (∀ (τ : Type) (m : Nat) (rss : List (List τ)), rss ≠ [] →
      (∀ rs ∈ rss, rs.length = m) →
      ∃ out, resultsFuel τ (m + 1)
        (rss.map (fun rs => [rs.map (fun v => (⟨some v, 0⟩ : Env τ)) ++ [⟨none, 0⟩]]))
        = some out) := by
  refine ⟨?_, ?_, resultsFuel_total⟩
  · intro τ N M xs f s hN hreach
    have hinv := oInv_reach N M xs f s hN hreach
    refine ⟨fun hnd => oProgress N xs f s hN hinv hnd, ?_⟩
    intro i s' hstep
    exact oStep_mu_lt (fun x => some (f x)) N xs.length i s s' hstep hinv.brk
      (fun hne => oInv_reads_lt_of_inT_ne N xs f s hN hinv hne)
  · intro τ dt N M xs s hN hreach
    have hinv := uInv_reach dt N M xs hN s hreach
    refine ⟨fun hnd => uProgress dt N s hnd (Or.inr hinv), ?_⟩
    intro i s' hstep
    exact uStep_mu_lt dt N i s s' hstep

theorem c3_witness :
    (0 < 1 ∧ ¬ allDoneO c1wS4 ∧
      (∃ i s', OStep (fun n : Nat => some (n + 1)) 1 i c1wS4 s')) ∧
    (∃ out, resultsFuel Nat 2
      ([[3], [4]].map (fun rs => [rs.map (fun v => (⟨some v, 0⟩ : Env Nat)) ++ [⟨none, 0⟩]]))
      = some out) := by
  have hreach4 : OReach (fun n : Nat => some (n + 1)) 1 (oInit 1 1 [1] false) c1wS4 := by
    have h1 : OStepAny (fun n : Nat => some (n + 1)) 1 c1wS0 c1wS1 :=
      ⟨0, OStep.readTask c1wS0 0 1 0 [⟨none, 0⟩] (by decide) (by decide) rfl⟩
    have h2 : OStepAny (fun n : Nat => some (n + 1)) 1 c1wS1 c1wS2 :=
      ⟨0, OStep.workStep c1wS1 0 1 (by decide)⟩
    have h3 : OStepAny (fun n : Nat => some (n + 1)) 1 c1wS2 c1wS3 :=
      ⟨0, OStep.pubStep c1wS2 0 2 (by decide) (by decide)⟩
    have h4 : OStepAny (fun n : Nat => some (n + 1)) 1 c1wS3 c1wS4 :=
      ⟨0, OStep.readStop c1wS3 0 0 [] (by decide) (by decide) rfl⟩
    exact Relation.ReflTransGen.tail (Relation.ReflTransGen.tail (Relation.ReflTransGen.tail
      (Relation.ReflTransGen.tail Relation.ReflTransGen.refl h1) h2) h3) h4
  have hnd : ¬ allDoneO c1wS4 := by
    intro hall
    have := hall 0
    revert this
    decide
  refine ⟨⟨Nat.one_pos, hnd, ?_⟩, ?_⟩
  · exact ((c3_termination_amended.1 Nat 1 1 [1] (fun n => n + 1) c1wS4
      Nat.one_pos hreach4).1 hnd)
  · exact c3_termination_amended.2.2 Nat 1 [[3], [4]] (by simp)
      (by intro rs hrs; simp at hrs; rcases hrs with rfl | rfl <;> rfl)

/-- The state after the ordered exception path: the envelope is replaced by
`(None, 0)` and the worker enters stop aggregation; the `release` of the
next-input lock is skipped (the `try` block was exited), and the acquired
token is lost. -/
def oFailSt (s : OState τ N) (i : Fin N) : OState τ N :=
  { s with inTok := Function.update s.inTok i false,
           wpc := Function.update s.wpc i (OPC.stopAgg 0) }

/-- The state after the unordered exception path. -/
def uFailSt (s : UState τ N) (i : Fin N) : UState τ N :=
  { s with wpc := Function.update s.wpc i (UPC.gotE ⟨none, 0⟩) }

/-- C5 (amended): on a failing input-tube read, a worker of either kind
behaves exactly as if it had dequeued the stop envelope `(NONE, 0)` and
enters stop aggregation.  For an unordered stage this cannot wedge the
stage: with a broken tube a transition is always enabled while some worker
is alive, and every transition decreases the measure, so all workers exit.
For an ordered stage of size ≥ 2 the guarantee fails (see the
counterexample): the failing worker skips the next-input-lock release. -/
theorem c5_read_failure_amended :
    (∀ (τ : Type) (dt : τ → Option τ) (N : Nat) (i : Fin N) (s : OState τ N),
      s.wpc i = .waitIn → s.inTok i = true → s.inT = [] → s.broken = true →
      ∀ s', OStep dt N i s s' ↔ s' = oFailSt s i) ∧
    (∀ (τ : Type) (dt : τ → Option τ) (N : Nat) (i : Fin N) (s : UState τ N),
      s.wpc i = .idle → s.inT = [] → s.broken = true →
      ∀ s', UStep dt N i s s' ↔ s' = uFailSt s i) ∧
    (∀ (τ : Type) (dt : τ → Option τ) (N : Nat) (s : UState τ N),
      s.broken = true → ¬ allDoneU s → ∃ i s', UStep dt N i s s') ∧
    (∀ (τ : Type) (dt : τ → Option τ) (N : Nat) (i : Fin N) (s s' : UState τ N),
      UStep dt N i s s' → muU s' < muU s) := by
  refine ⟨?_, ?_, ?_, ?_⟩
  · intro τ dt N i s h1 h2 h3 h4 s'
    constructor
    · intro hstep
      cases hstep with
      | readTask s i t c rest p1 p2 p3 =>
          rw [h3] at p3
          exact absurd p3 (by simp)
      | readStop s i c rest p1 p2 p3 =>
          rw [h3] at p3
          exact absurd p3 (by simp)
      | readFail s i p1 p2 p3 p4 => rfl
      | workStep s i t p1 =>
          rw [h1] at p1
          exact absurd p1 (by simp)
      | pubStep s i r p1 p2 =>
          rw [h1] at p1
          exact absurd p1 (by simp)
      | stopPass s i c p1 p2 =>
          rw [h1] at p1
          exact absurd p1 (by simp)
      | stopLast s i c p1 p2 =>
          rw [h1] at p1
          exact absurd p1 (by simp)
    · intro hs'
      subst hs'
      exact OStep.readFail s i h1 h2 h3 h4
  · intro τ dt N i s h1 h2 h3 s'
    constructor
    · intro hstep
      cases hstep with
      | uGet s i e rest p1 p2 =>
          rw [h2] at p2
          exact absurd p2 (by simp)
      | uGetFail s i p1 p2 p3 => rfl
      | uTask s i t c p1 =>
          rw [h1] at p1
          exact absurd p1 (by simp)
      | uPub s i r p1 =>
          rw [h1] at p1
          exact absurd p1 (by simp)
      | uStopEmit s i c p1 p2 =>
          rw [h1] at p1
          exact absurd p1 (by simp)
      | uStopPass s i c p1 p2 =>
          rw [h1] at p1
          exact absurd p1 (by simp)
    · intro hs'
      subst hs'
      exact UStep.uGetFail s i h1 h2 h3
  · intro τ dt N s hbrk hnd
    exact uProgress dt N s hnd (Or.inl hbrk)
  · intro τ dt N i s s' hstep
    exact uStep_mu_lt dt N i s s' hstep

def c5e0 : OState Nat 2 := oInit0 2 1 [] true

def c5e1 : OState Nat 2 :=
  { c5e0 with inTok := Function.update c5e0.inTok 0 false, wpc := Function.update c5e0.wpc 0 (OPC.stopAgg 0) }

def c5e2 : OState Nat 2 :=
  { c5e1 with inT := c5e1.inT ++ [⟨none, 1⟩], wpc := Function.update c5e1.wpc 0 OPC.done }

/-- C5 counterexample: in an ordered stage of two workers whose (empty)
upstream is disconnected, worker 0's read fails; it aggregates the stop as
`(NONE, 0)`, re-enqueues `(NONE, 1)` and exits — but it never released the
next-input lock, so worker 1 blocks forever in `acquire`: the stage is
wedged (no transition enabled, a worker still alive), refuting "a
disconnected upstream cannot wedge the stage". -/
theorem c5_counterexample_ordered_stage_wedges :
    OReach (fun n : Nat => some n) 2 (oInit0 2 1 [] true) c5e2 ∧
    ¬ allDoneO c5e2 ∧ stuckO (fun n : Nat => some n) 2 c5e2 := by
  refine ⟨?_, ?_, ?_⟩
  · have h1 : OStepAny (fun n : Nat => some n) 2 c5e0 c5e1 :=
      ⟨0, OStep.readFail c5e0 0 (by decide) (by decide) rfl (by decide)⟩
    have h2 : OStepAny (fun n : Nat => some n) 2 c5e1 c5e2 :=
      ⟨0, OStep.stopPass c5e1 0 0 (by decide) (by decide)⟩
    exact Relation.ReflTransGen.tail
      (Relation.ReflTransGen.tail Relation.ReflTransGen.refl h1) h2
  · intro hall
    have := hall 1
    revert this
    decide
  · have hw : ∀ j : Fin 2, c5e2.wpc j = OPC.done ∨ c5e2.wpc j = OPC.waitIn := by decide
    have htok : ∀ j : Fin 2, c5e2.inTok j = false := by decide
    intro i s' h
    cases h with
    | readTask s i t c rest p1 p2 p3 =>
        rw [htok i] at p2
        exact absurd p2 (by simp)
    | readStop s i c rest p1 p2 p3 =>
        rw [htok i] at p2
        exact absurd p2 (by simp)
    | readFail s i p1 p2 p3 p4 =>
        rw [htok i] at p2
        exact absurd p2 (by simp)
    | workStep s i t p1 =>
        rcases hw i with hd | hd <;> rw [hd] at p1 <;> exact absurd p1 (by simp)
    | pubStep s i r p1 p2 =>
        rcases hw i with hd | hd <;> rw [hd] at p1 <;> exact absurd p1 (by simp)
    | stopPass s i c p1 p2 =>
        rcases hw i with hd | hd <;> rw [hd] at p1 <;> exact absurd p1 (by simp)
    | stopLast s i c p1 p2 =>
        rcases hw i with hd | hd <;> rw [hd] at p1 <;> exact absurd p1 (by simp)

def c5u0 : UState Nat 1 := uInit0 1 1 [] true

theorem c5_witness :
    OStep (fun n : Nat => some n) 2 0 c5e0 (oFailSt c5e0 0) ∧
    UStep (fun n : Nat => some n) 1 0 c5u0 (uFailSt c5u0 0) ∧
    (∃ i s', UStep (fun n : Nat => some n) 1 i c5u0 s') ∧
    muU (uFailSt c5u0 0) < muU c5u0 := by
  refine ⟨?_, ?_, ?_, ?_⟩
  · exact (c5_read_failure_amended.1 Nat (fun n => some n) 2 0 c5e0
      (by decide) (by decide) rfl (by decide) (oFailSt c5e0 0)).mpr rfl
  · exact (c5_read_failure_amended.2.1 Nat (fun n => some n) 1 0 c5u0
      (by decide) rfl (by decide) (uFailSt c5u0 0)).mpr rfl
  · refine c5_read_failure_amended.2.2.1 Nat (fun n => some n) 1 c5u0 (by decide) ?_
    intro hall
    have := hall 0
    revert this
    decide
  · refine c5_read_failure_amended.2.2.2 Nat (fun n => some n) 1 0 c5u0 (uFailSt c5u0 0) ?_
    exact (c5_read_failure_amended.2.1 Nat (fun n => some n) 1 0 c5u0
      (by decide) rfl (by decide) (uFailSt c5u0 0)).mpr rfl
